import Mathlib

/-!
Verification of the hikari in-memory state cache against its specification.

The repository's stateful cache (`hikari/impl/stateful_cache.py`) is embedded
as pure Lean functions over an explicit cache state; its behaviour is pinned
down by `tests/hikari/impl/test_stateful_cache.py` and by the specification
(the implementation module itself is not part of the source tree, so the
definitions below that carry a `Modelled from the spec:` doc comment are
reconstructed from the specification's words and the unit tests).
`hikari/core/components/basic_state_registry.py` is present in the source tree
and is embedded directly from its code.

All mappings are modelled as association lists (`List (Nat × α)`), with
`alGet` / `alInsert` / `alErase` playing the role of dictionary read, write
and delete.  Snowflake identifiers are modelled as `Nat`.
-/

namespace Hikari

/-- Dictionary lookup on an association list: first entry whose key matches. -/
def alGet (k : Nat) : List (Nat × α) → Option α
  | [] => none
  | (k', v) :: t => if k' = k then some v else alGet k t

/-- Dictionary delete: removes every entry with the given key. -/
def alErase (k : Nat) : List (Nat × α) → List (Nat × α)
  | [] => []
  | (k', v) :: t => if k' = k then alErase k t else (k', v) :: alErase k t

/-- Dictionary insert-or-replace: the new binding shadows and removes any
previous binding of the same key. -/
def alInsert (k : Nat) (v : α) (l : List (Nat × α)) : List (Nat × α) :=
  (k, v) :: alErase k l

@[simp] theorem alGet_nil (k : Nat) : alGet k ([] : List (Nat × α)) = none := rfl

@[simp] theorem alGet_cons (k k' : Nat) (v : α) (t : List (Nat × α)) :
    alGet k ((k', v) :: t) = if k' = k then some v else alGet k t := rfl

@[simp] theorem alErase_nil (k : Nat) : alErase k ([] : List (Nat × α)) = [] := rfl

@[simp] theorem alErase_cons (k k' : Nat) (v : α) (t : List (Nat × α)) :
    alErase k ((k', v) :: t) = if k' = k then alErase k t else (k', v) :: alErase k t := rfl

@[simp] theorem alGet_alErase_self (k : Nat) (l : List (Nat × α)) :
    alGet k (alErase k l) = none := by
  induction l with
  | nil => rfl
  | cons p t ih =>
    obtain ⟨k', v⟩ := p
    by_cases h : k' = k <;> simp [h, ih]

@[simp] theorem alGet_alErase_ne (k k' : Nat) (l : List (Nat × α)) (h : k' ≠ k) :
    alGet k (alErase k' l) = alGet k l := by
  induction l with
  | nil => rfl
  | cons p t ih =>
    obtain ⟨k'', v⟩ := p
    by_cases h2 : k'' = k'
    · subst h2
      simp [h, ih]
    · by_cases h3 : k'' = k <;> simp [h2, h3, Ne.symm h, ih]

@[simp] theorem alGet_alInsert_self (k : Nat) (v : α) (l : List (Nat × α)) :
    alGet k (alInsert k v l) = some v := by
  simp [alInsert]

@[simp] theorem alGet_alInsert_ne (k k' : Nat) (v : α) (l : List (Nat × α)) (h : k' ≠ k) :
    alGet k (alInsert k' v l) = alGet k l := by
  simp [alInsert, h]

theorem alErase_of_not_mem_keys (k : Nat) (l : List (Nat × α))
    (h : k ∉ l.map Prod.fst) : alErase k l = l := by
  induction l with
  | nil => rfl
  | cons p t ih =>
    simp only [List.map_cons, List.mem_cons] at h
    push_neg at h
    obtain ⟨k', v⟩ := p
    have hne : k' ≠ k := fun hh => h.1 hh.symm
    simp [hne, ih h.2]

theorem alGet_eq_none_of_not_mem_keys (k : Nat) (l : List (Nat × α))
    (h : k ∉ l.map Prod.fst) : alGet k l = none := by
  induction l with
  | nil => rfl
  | cons p t ih =>
    simp only [List.map_cons, List.mem_cons] at h
    push_neg at h
    obtain ⟨k', v⟩ := p
    have hne : k' ≠ k := fun hh => h.1 hh.symm
    simp [hne, ih h.2]

theorem alGet_isSome_of_mem_keys (k : Nat) (l : List (Nat × α))
    (h : k ∈ l.map Prod.fst) : (alGet k l).isSome := by
  induction l with
  | nil => simp at h
  | cons p t ih =>
    simp only [List.map_cons, List.mem_cons] at h
    by_cases h2 : p.1 = k
    · simp [alGet, h2]
    · rcases h with h | h
      · exact absurd h.symm h2
      · simpa [alGet, h2] using ih h

theorem alGet_of_mem_of_nodup (k : Nat) (v : α) (l : List (Nat × α))
    (hmem : (k, v) ∈ l) (hnd : (l.map Prod.fst).Nodup) : alGet k l = some v := by
  induction l with
  | nil => simp at hmem
  | cons p t ih =>
    simp only [List.map_cons, List.nodup_cons] at hnd
    rcases List.mem_cons.mp hmem with h | h
    · subst h; simp [alGet]
    · have hne : p.1 ≠ k := by
        intro hk
        exact hnd.1 (hk ▸ (List.mem_map.mpr ⟨(k, v), h, rfl⟩))
      simpa [alGet, hne] using ih h hnd.2

/-- Modelled from the spec: a shared entity (user), carrying a stable
snowflake identifier plus its remaining payload (condensed to one field;
`hikari/models/users.py` is not part of the source tree). -/
structure User where
  id : Nat
  username : String
deriving DecidableEq

/-- Modelled from the spec: a GatewayGuild owner entity (condensed to id plus
payload; `hikari/models/guilds.py` is not part of the source tree). -/
structure Guild where
  id : Nat
  name : String
deriving DecidableEq

/-- The compact DM-channel record `stateful_cache._DMChannelData`
(fields pinned by `test_set_dm_channel`): id, optional name, optional
last-message id, and the recipient stored as an id reference only. -/
structure DMChannelData where
  id : Nat
  name : Option String
  last_message_id : Option Nat
  recipient_id : Nat
deriving DecidableEq

/-- Modelled from the spec: a fully rehydrated DM channel, carrying the
recipient `User` object itself. -/
structure DMChannel where
  id : Nat
  name : Option String
  last_message_id : Option Nat
  recipient : User
deriving DecidableEq

/-- The compact member record `stateful_cache._MemberData` (fields pinned by
`test_set_member` / `test_get_member_for_known_member`): does not store the
user object, only the user id.  Timestamps are modelled as `Nat`. -/
structure MemberData where
  id : Nat
  guild_id : Nat
  nickname : Option String
  role_ids : List Nat
  joined_at : Nat
  premium_since : Option Nat
  is_deaf : Bool
  is_mute : Bool
deriving DecidableEq

/-- Modelled from the spec: a fully rehydrated guild member, carrying the
shared `User` object itself. -/
structure Member where
  user : User
  guild_id : Nat
  nickname : Option String
  role_ids : List Nat
  joined_at : Nat
  premium_since : Option Nat
  is_deaf : Bool
  is_mute : Bool
deriving DecidableEq

/-- The owner record `stateful_cache._GuildRecord`: optional full guild
entity, optional availability flag (absent while undetermined), and the
owned sub-collections, represented by the members mapping (the other owned
sub-collections of the spec — voice states, roles, emojis — have the same
shape and are condensed into `members` here). -/
structure GuildRecord where
  guild : Option Guild := none
  is_available : Option Bool := none
  members : List (Nat × MemberData) := []
deriving DecidableEq

/-- The distinguished unavailable-owner error `errors.UnavailableGuildError`. -/
structure UnavailableGuildError where
  guild_id : Nat
deriving DecidableEq

/-- Modelled from the spec: the state of `StatefulCacheComponentImpl` — the
single mutable slot for the session's own user, the shared user store, the
bounded DM-channel store (a list ordered by recency, head most recently
touched, with its fixed capacity), and the guild records. -/
structure CacheState where
  dm_capacity : Nat
  me : Option User := none
  user_entries : List (Nat × User) := []
  dm_channel_entries : List (Nat × DMChannelData) := []
  guild_entries : List (Nat × GuildRecord) := []
deriving DecidableEq

/-- Modelled from the spec: an empty cache as built at construction, with the
DM-channel capacity fixed. -/
def initCache (dmCapacity : Nat) : CacheState :=
  { dm_capacity := dmCapacity }

/-- The number of compact records in a container that name a given user id,
the id being read off a record by `f`. -/
def refsBy (f : β → Nat) (uid : Nat) (l : List (Nat × β)) : Nat :=
  (l.filter (fun p => f p.2 = uid)).length

/-- Modelled from the spec: the total reference count of a user id — the sum
of owner-record references (member records naming the id) plus DM-channel
recipient references. -/
def refCount (s : CacheState) (uid : Nat) : Nat :=
  (s.guild_entries.map (fun g => refsBy MemberData.id uid g.2.members)).sum
  + refsBy DMChannelData.recipient_id uid s.dm_channel_entries

/-- Modelled from the spec: release bookkeeping after a record naming `uid`
has been removed — when the reference count has reached zero the user is
deleted from the shared store, otherwise nothing happens. -/
def gcUser (uid : Nat) (s : CacheState) : CacheState :=
  if refCount s uid = 0 then { s with user_entries := alErase uid s.user_entries } else s

/-- Modelled from the spec: `get_user(id)` — O(1) lookup, no side effect,
absent when uncached. -/
def get_user (s : CacheState) (uid : Nat) : Option User :=
  alGet uid s.user_entries

/-- Modelled from the spec: `set_user(user)` — inserts or wholesale-replaces
the entry for `user.id` (pinned by `test_set_user`). -/
def set_user (u : User) (s : CacheState) : CacheState :=
  { s with user_entries := alInsert u.id u s.user_entries }

/-- Modelled from the spec: `delete_user(id)` — unconditional removal,
returning the previous value (pinned by `test_delete_user_for_known_user`). -/
def delete_user (uid : Nat) (s : CacheState) : Option User × CacheState :=
  (alGet uid s.user_entries, { s with user_entries := alErase uid s.user_entries })

/-- Modelled from the spec: `update_user(user)` — fetch-before, set,
fetch-after, returning the `(old, new)` pair (pinned by `test_update_user`). -/
def update_user (u : User) (s : CacheState) : (Option User × Option User) × CacheState :=
  let old := get_user s u.id
  let s' := set_user u s
  ((old, get_user s' u.id), s')

/-- Modelled from the spec: the write-path decomposition of a full member
into its compact record (pinned by `test_set_member`). -/
def member_to_data (m : Member) : MemberData :=
  { id := m.user.id, guild_id := m.guild_id, nickname := m.nickname,
    role_ids := m.role_ids, joined_at := m.joined_at,
    premium_since := m.premium_since, is_deaf := m.is_deaf, is_mute := m.is_mute }

/-- Modelled from the spec: the read-path reconstruction
`stateful_cache._build_member` — resolves the record's user id against the
shared store; a record whose user no longer resolves yields nothing. -/
def build_member (s : CacheState) (d : MemberData) : Option Member :=
  (alGet d.id s.user_entries).map
    (fun u => { user := u, guild_id := d.guild_id, nickname := d.nickname,
                role_ids := d.role_ids, joined_at := d.joined_at,
                premium_since := d.premium_since, is_deaf := d.is_deaf,
                is_mute := d.is_mute })

/-- Modelled from the spec: `set_member(member)` — decomposes into a compact
record stored under the owner guild id (creating the record if needed) and
establishes the shared-store reference to `member.user.id`, inserting the
user (pinned by `test_set_member`). -/
def set_member (m : Member) (s : CacheState) : CacheState :=
  let r := (alGet m.guild_id s.guild_entries).getD {}
  let r' := { r with members := alInsert m.user.id (member_to_data m) r.members }
  { s with guild_entries := alInsert m.guild_id r' s.guild_entries,
           user_entries := alInsert m.user.id m.user s.user_entries }

/-- Modelled from the spec: `get_member(guild_id, user_id)` — reconstructs
one member, absent when the guild record or the member record is uncached
(pinned by `test_get_member_for_known_member`). -/
def get_member (s : CacheState) (gid uid : Nat) : Option Member :=
  match alGet gid s.guild_entries with
  | none => none
  | some r =>
    match alGet uid r.members with
    | none => none
    | some d => build_member s d

/-- Modelled from the spec: `delete_member(guild_id, user_id)` — removes the
compact record, returns the reconstructed full member, and releases the
user reference, deleting the user when its count reaches zero (pinned by
`test_delete_member_for_known_member`). -/
def delete_member (gid uid : Nat) (s : CacheState) : Option Member × CacheState :=
  match alGet gid s.guild_entries with
  | none => (none, s)
  | some r =>
    match alGet uid r.members with
    | none => (none, s)
    | some d =>
      let m := build_member s d
      let r' := { r with members := alErase uid r.members }
      let s' := { s with guild_entries := alInsert gid r' s.guild_entries }
      (m, gcUser d.id s')

/-- Modelled from the spec: `update_member(member)` — fetch-before, set,
fetch-after, both fetches through the full reconstruction path (pinned by
`test_update_member`). -/
def update_member (m : Member) (s : CacheState) :
    (Option Member × Option Member) × CacheState :=
  let old := get_member s m.guild_id m.user.id
  let s' := set_member m s
  ((old, get_member s' m.guild_id m.user.id), s')

/-- Modelled from the spec: `set_guild(guild)` — stores the full guild
entity in its record (creating the record if needed) and marks it available
(pinned by `test_set_guild`). -/
def set_guild (g : Guild) (s : CacheState) : CacheState :=
  let r := (alGet g.id s.guild_entries).getD {}
  { s with guild_entries :=
      alInsert g.id { r with guild := some g, is_available := some true } s.guild_entries }

/-- Modelled from the spec: `get_guild(guild_id)` — absent when no record or
no guild entity is cached; raises the distinguished unavailable-guild error
when the record is explicitly marked unavailable (pinned by
`test_get_guild_for_known_guild_when_unavailable` and the spec's
bulk-seeding scenario). -/
def get_guild (s : CacheState) (gid : Nat) : Except UnavailableGuildError (Option Guild) :=
  match alGet gid s.guild_entries with
  | none => .ok none
  | some r =>
    if r.is_available = some false then .error ⟨gid⟩ else .ok r.guild

/-- Modelled from the spec: `set_guild_availability(guild_id, bool)` — marks
an owner temporarily unreachable or reachable without discarding cached
data, creating a placeholder record if needed (pinned by
`test_set_guild_availability`). -/
def set_guild_availability (gid : Nat) (b : Bool) (s : CacheState) : CacheState :=
  let r := (alGet gid s.guild_entries).getD {}
  { s with guild_entries := alInsert gid { r with is_available := some b } s.guild_entries }

/-- Modelled from the spec: `set_initial_unavailable_guilds(ids)` — bulk
availability seeding at session start: a placeholder record marked
unavailable for each id (pinned by `test_set_initial_unavailable_guilds`). -/
def set_initial_unavailable_guilds (ids : List Nat) (s : CacheState) : CacheState :=
  ids.foldl (fun st i => set_guild_availability i false st) s

/-- A guild record with no owner entity and no owned entries is removable. -/
def recordIsEmpty (r : GuildRecord) : Bool :=
  r.guild.isNone && r.members.isEmpty

/-- Modelled from the spec: `delete_guild(guild_id)` — removes the guild
entity from its record (not the owned sub-collections) and returns it; the
record itself is removed entirely when the result is fully empty, and the
emptied shell is kept otherwise (pinned by `test_delete_guild_for_known_guild`
and `test_delete_guild_for_removes_emptied_record`). -/
def delete_guild (gid : Nat) (s : CacheState) : Option Guild × CacheState :=
  match alGet gid s.guild_entries with
  | none => (none, s)
  | some r =>
    match r.guild with
    | none => (none, s)
    | some g =>
      let r' : GuildRecord := { r with guild := none, is_available := none }
      if recordIsEmpty r' then
        (some g, { s with guild_entries := alErase gid s.guild_entries })
      else
        (some g, { s with guild_entries := alInsert gid r' s.guild_entries })

/-- The per-record transformation performed by `clear_guilds`: a record with
no guild is kept as is; a record whose guild is removed is dropped entirely
when left fully empty and kept as an emptied shell otherwise (pinned by
`test_clear_guilds`). -/
def clearGuildsEntry (p : Nat × GuildRecord) : Option (Nat × GuildRecord) :=
  match p.2.guild with
  | none => some p
  | some _ =>
    let r' : GuildRecord := { p.2 with guild := none, is_available := none }
    if recordIsEmpty r' then none else some (p.1, r')

/-- Modelled from the spec: `clear_guilds()` — removes and returns every
currently-set guild entity (pinned by `test_clear_guilds`). -/
def clear_guilds (s : CacheState) : List (Nat × Guild) × CacheState :=
  (s.guild_entries.filterMap (fun p => p.2.guild.map (fun g => (p.1, g))),
   { s with guild_entries := s.guild_entries.filterMap clearGuildsEntry })

/-- Modelled from the spec: the write-path decomposition of a full DM channel
into its compact record (pinned by `test_set_dm_channel`): the recipient is
persisted as `recipient.id` only, never as the `User` object. -/
def dm_to_data (c : DMChannel) : DMChannelData :=
  { id := c.id, name := c.name, last_message_id := c.last_message_id,
    recipient_id := c.recipient.id }

/-- Modelled from the spec: the read-path reconstruction of a DM channel —
resolves the record's recipient id against the shared store. -/
def build_dm (s : CacheState) (d : DMChannelData) : Option DMChannel :=
  (alGet d.recipient_id s.user_entries).map
    (fun u => { id := d.id, name := d.name, last_message_id := d.last_message_id,
                recipient := u })

/-- Modelled from the spec: `set_dm_channel(channel)` — decomposes into a
compact record stored in the bounded cache under the recipient's user id and
establishes the shared-store reference to the recipient.  The store is
least-recently-used: replacing an existing entry re-touches it; inserting a
fresh entry at capacity first evicts the least-recently-touched entry,
releasing the evicted entry's recipient reference exactly like explicit
deletion (keying pinned by `test_set_dm_channel`). -/
def set_dm_channel (c : DMChannel) (s : CacheState) : CacheState :=
  let d := dm_to_data c
  let key := c.recipient.id
  if (alGet key s.dm_channel_entries).isSome then
    { s with dm_channel_entries := (key, d) :: alErase key s.dm_channel_entries,
             user_entries := alInsert key c.recipient s.user_entries }
  else if s.dm_channel_entries.length < s.dm_capacity then
    { s with dm_channel_entries := (key, d) :: s.dm_channel_entries,
             user_entries := alInsert key c.recipient s.user_entries }
  else
    let s1 := { s with dm_channel_entries := s.dm_channel_entries.dropLast }
    let s2 := match s.dm_channel_entries.getLast? with
      | none => s1
      | some e => gcUser e.2.recipient_id s1
    { s2 with dm_channel_entries := (key, d) :: s2.dm_channel_entries,
              user_entries := alInsert key c.recipient s2.user_entries }

/-- Modelled from the spec: `get_dm_channel(recipient_id)` — looks the
compact record up by recipient user id and reconstructs it (pinned by
`test_get_dm_channel_for_known_dm_channel`). -/
def get_dm_channel (s : CacheState) (uid : Nat) : Option DMChannel :=
  (alGet uid s.dm_channel_entries).bind (build_dm s)

/-- Modelled from the spec: `delete_dm_channel(recipient_id)` — removes the
compact record keyed by recipient user id, returns the reconstructed
channel, and releases the recipient reference, deleting the user when its
count reaches zero (pinned by `test_delete_dm_channel_for_known_dm_channel`). -/
def delete_dm_channel (uid : Nat) (s : CacheState) : Option DMChannel × CacheState :=
  match alGet uid s.dm_channel_entries with
  | none => (none, s)
  | some d =>
    let c := build_dm s d
    let s' := { s with dm_channel_entries := alErase uid s.dm_channel_entries }
    (c, gcUser d.recipient_id s')

/-- Modelled from the spec: `update_dm_channel(channel)` — fetch-before, set,
fetch-after, both fetches keyed by the recipient id and routed through the
reconstruction path (pinned by `test_update_dm_channel`). -/
def update_dm_channel (c : DMChannel) (s : CacheState) :
    (Option DMChannel × Option DMChannel) × CacheState :=
  let old := get_dm_channel s c.recipient.id
  let s' := set_dm_channel c s
  ((old, get_dm_channel s' c.recipient.id), s')

/-- Modelled from the spec: `get_me()` — the single own-user slot. -/
def get_me (s : CacheState) : Option User :=
  s.me

/-- Modelled from the spec: `set_me(user)` (pinned by `test_set_me`). -/
def set_me (u : User) (s : CacheState) : CacheState :=
  { s with me := some u }

/-- Modelled from the spec: `delete_me()` (pinned by
`test_delete_me_for_known_me`). -/
def delete_me (s : CacheState) : Option User × CacheState :=
  (s.me, { s with me := none })

/-- Modelled from the spec: `update_me(user)` — returns the `(old, new)` pair
(pinned by `test_update_me_for_cached_me`). -/
def update_me (u : User) (s : CacheState) : (Option User × Option User) × CacheState :=
  let old := get_me s
  let s' := set_me u s
  ((old, get_me s'), s')

/-- Modelled from the spec: the generic fixed-capacity least-recently-used
container `types.LRUDict` used for the high-volume stores (DM channels,
messages); `hikari/core/utils/types.py` is not part of the source tree.  The
item list is ordered by recency, head most recently touched. -/
structure LRU (α : Type) where
  capacity : Nat
  items : List (Nat × α) := []

/-- Lookup without recency bookkeeping (used to detect presence). -/
def LRU.find (l : LRU α) (k : Nat) : Option α :=
  alGet k l.items

/-- Modelled from the spec: LRU insertion — an existing binding of the key is
replaced and re-touched; inserting a fresh key at capacity first evicts the
least-recently-touched entry (the last of the recency list). -/
def LRU.insert (l : LRU α) (k : Nat) (v : α) : LRU α :=
  let erased := alErase k l.items
  let trimmed := if erased.length < l.capacity then erased else erased.dropLast
  { l with items := (k, v) :: trimmed }

/-- Modelled from the spec: an LRU read counts as a touch — the entry, when
present, moves to the most-recently-touched position. -/
def LRU.read (l : LRU α) (k : Nat) : Option α × LRU α :=
  match alGet k l.items with
  | none => (none, l)
  | some v => (some v, { l with items := (k, v) :: alErase k l.items })

namespace BasicStateRegistry

/-- A guild channel object as held by `BasicStateRegistry._guild_channels`;
its `guild` back-reference is modelled by the owning guild's id
(from `hikari/core/components/basic_state_registry.py`). -/
structure GuildChannel where
  id : Nat
  guild_id : Nat
deriving DecidableEq

/-- A DM channel object as held by `BasicStateRegistry._dm_channels`
(condensed to its id). -/
structure DMChannel where
  id : Nat
deriving DecidableEq

/-- A guild object: its id and its owned `channels` mapping
(other owned mappings are not needed by the embedded operations). -/
structure Guild where
  id : Nat
  channels : List (Nat × GuildChannel) := []
deriving DecidableEq

/-- The result of `delete_channel` / `get_channel_by_id`: either a guild
channel or a DM channel. -/
inductive ChannelObj where
  | guild (c : GuildChannel)
  | dm (c : DMChannel)
deriving DecidableEq

/-- The mappings of `BasicStateRegistry.__init__`
(`hikari/core/components/basic_state_registry.py`, lines 72-87); the
weak-valued dictionaries are modelled by their current contents, and the
emoji/message/role values are condensed to opaque numbers. -/
structure RegistryState where
  _dm_channels : List (Nat × DMChannel) := []
  _emojis : List (Nat × Nat) := []
  _guilds : List (Nat × Guild) := []
  _guild_channels : List (Nat × GuildChannel) := []
  _messages : List (Nat × Nat) := []
  _roles : List (Nat × Nat) := []
  _users : List (Nat × User) := []
  user : Option User := none
deriving DecidableEq

/-- `BasicStateRegistry.delete_channel` (lines 89-101): deletes a known guild
channel from its guild and the registry, or a known DM channel from the
registry, and raises `KeyError(str(channel_id))` for an unknown id. -/
def delete_channel (channel_id : Nat) (st : RegistryState) :
    Except String (ChannelObj × RegistryState) :=
  match alGet channel_id st._guild_channels with
  | some gc =>
    match alGet gc.guild_id st._guilds with
    | none => .error (toString gc.guild_id)
    | some g =>
      match alGet channel_id g.channels with
      | none => .error (toString channel_id)
      | some ch =>
        let g' := { g with channels := alErase channel_id g.channels }
        .ok (.guild ch,
          { st with _guilds := alInsert gc.guild_id g' st._guilds,
                    _guild_channels := alErase channel_id st._guild_channels })
  | none =>
    match alGet channel_id st._dm_channels with
    | some ch =>
      .ok (.dm ch, { st with _dm_channels := alErase channel_id st._dm_channels })
    | none => .error (toString channel_id)

/-- `BasicStateRegistry.delete_guild` (lines 110-113): subscripting
`self._guilds[guild_id]` raises `KeyError` for an unknown id. -/
def delete_guild (guild_id : Nat) (st : RegistryState) :
    Except String (Guild × RegistryState) :=
  match alGet guild_id st._guilds with
  | none => .error (toString guild_id)
  | some g => .ok (g, { st with _guilds := alErase guild_id st._guilds })

/-- `BasicStateRegistry.get_channel_by_id`:
`self._guild_channels.get(channel_id) or self._dm_channels.get(channel_id)`. -/
def get_channel_by_id (st : RegistryState) (channel_id : Nat) : Option ChannelObj :=
  match alGet channel_id st._guild_channels with
  | some c => some (.guild c)
  | none => (alGet channel_id st._dm_channels).map .dm

/-- `BasicStateRegistry.get_emoji_by_id`. -/
def get_emoji_by_id (st : RegistryState) (emoji_id : Nat) : Option Nat :=
  alGet emoji_id st._emojis

/-- `BasicStateRegistry.get_guild_by_id`. -/
def get_guild_by_id (st : RegistryState) (guild_id : Nat) : Option Guild :=
  alGet guild_id st._guilds

/-- `BasicStateRegistry.get_guild_channel_by_id`. -/
def get_guild_channel_by_id (st : RegistryState) (guild_channel_id : Nat) :
    Option GuildChannel :=
  alGet guild_channel_id st._guild_channels

/-- `BasicStateRegistry.get_message_by_id`. -/
def get_message_by_id (st : RegistryState) (message_id : Nat) : Option Nat :=
  alGet message_id st._messages

/-- `BasicStateRegistry.get_role_by_id`: the body is `pass`, so the call
returns `None` for every id. -/
def get_role_by_id (_st : RegistryState) (_role_id : Nat) : Option Nat :=
  none

/-- `BasicStateRegistry.get_user_by_id`. -/
def get_user_by_id (st : RegistryState) (user_id : Nat) : Option User :=
  alGet user_id st._users

/-- The wire payload handed to `parse_user` (condensed to the fields the
constructed `User` carries). -/
structure UserPayload where
  id : Nat
  username : String
deriving DecidableEq

/-- The `_user.User(self, user)` construction applied to a payload. -/
def userFromPayload (p : UserPayload) : User :=
  { id := p.id, username := p.username }

/-- `BasicStateRegistry.parse_user` (lines 216-226): when the id is not yet
cached, a new user object is constructed, cached and returned; when the id
is already cached, the existing object is returned unchanged and the store
is not modified. -/
def parse_user (p : UserPayload) (st : RegistryState) : User × RegistryState :=
  match alGet p.id st._users with
  | none =>
    let u := userFromPayload p
    (u, { st with _users := alInsert p.id u st._users })
  | some u => (u, st)

end BasicStateRegistry

/-- The mutating operations of the stateful cache's public interface. -/
inductive CacheOp where
  | setUser (u : User)
  | deleteUser (uid : Nat)
  | updateUser (u : User)
  | setMe (u : User)
  | deleteMe
  | updateMe (u : User)
  | setGuild (g : Guild)
  | deleteGuild (gid : Nat)
  | setGuildAvailability (gid : Nat) (b : Bool)
  | setInitialUnavailableGuilds (ids : List Nat)
  | clearGuilds
  | setMember (m : Member)
  | deleteMember (gid uid : Nat)
  | updateMember (m : Member)
  | setDmChannel (c : DMChannel)
  | deleteDmChannel (uid : Nat)
  | updateDmChannel (c : DMChannel)

/-- The state transformation each cache operation performs. -/
def applyOp : CacheOp → CacheState → CacheState
  | .setUser u, s => set_user u s
  | .deleteUser uid, s => (delete_user uid s).2
  | .updateUser u, s => (update_user u s).2
  | .setMe u, s => set_me u s
  | .deleteMe, s => (delete_me s).2
  | .updateMe u, s => (update_me u s).2
  | .setGuild g, s => set_guild g s
  | .deleteGuild gid, s => (delete_guild gid s).2
  | .setGuildAvailability gid b, s => set_guild_availability gid b s
  | .setInitialUnavailableGuilds ids, s => set_initial_unavailable_guilds ids s
  | .clearGuilds, s => (clear_guilds s).2
  | .setMember m, s => set_member m s
  | .deleteMember gid uid, s => (delete_member gid uid s).2
  | .updateMember m, s => (update_member m s).2
  | .setDmChannel c, s => set_dm_channel c s
  | .deleteDmChannel uid, s => (delete_dm_channel uid s).2
  | .updateDmChannel c, s => (update_dm_channel c s).2

/-- The operations that create or remove compact records naming shared
users: owner-record member mutation and bounded-cache DM-channel mutation. -/
def isRecordOp : CacheOp → Bool
  | .setMember _ => true
  | .deleteMember _ _ => true
  | .updateMember _ => true
  | .setDmChannel _ => true
  | .deleteDmChannel _ => true
  | .updateDmChannel _ => true
  | _ => false

/-- One step of the cache's full mutating interface. -/
def cacheStep (a b : CacheState) : Prop :=
  ∃ op : CacheOp, b = applyOp op a

/-- One step restricted to the record-mutating operations. -/
def recordStep (a b : CacheState) : Prop :=
  ∃ op : CacheOp, isRecordOp op = true ∧ b = applyOp op a

/-- A cache state reachable from construction through the full interface. -/
def Reachable (s : CacheState) : Prop :=
  ∃ cap, Relation.ReflTransGen cacheStep (initCache cap) s

/-- A cache state reachable from construction through the record-mutating
operations alone. -/
def ReachableByRecordOps (s : CacheState) : Prop :=
  ∃ cap, Relation.ReflTransGen recordStep (initCache cap) s

/-- The spec's retention invariant: a shared user is present in the shared
store exactly when its total reference count is positive. -/
def Retention (s : CacheState) : Prop :=
  ∀ uid, (alGet uid s.user_entries).isSome ↔ 0 < refCount s uid

/-- The cache's internal consistency invariant: guild records are keyed
without duplicates, each guild's member records are keyed by the member's
user id without duplicates, DM-channel records are keyed by their recipient
id without duplicates, and the retention invariant holds. -/
def Inv (s : CacheState) : Prop :=
  (s.guild_entries.map Prod.fst).Nodup
  ∧ (∀ p ∈ s.guild_entries,
      (p.2.members.map Prod.fst).Nodup ∧ ∀ q ∈ p.2.members, q.2.id = q.1)
  ∧ (s.dm_channel_entries.map Prod.fst).Nodup
  ∧ (∀ p ∈ s.dm_channel_entries, p.2.recipient_id = p.1)
  ∧ Retention s

theorem alErase_sublist (k : Nat) (l : List (Nat × α)) : List.Sublist (alErase k l) l := by
  induction l with
  | nil => simp
  | cons p t ih =>
    obtain ⟨k', v⟩ := p
    by_cases h : k' = k
    · simpa [h] using ih.cons (k', v)
    · simpa [h] using ih.cons₂ (k', v)

theorem mem_of_mem_alErase {p : Nat × α} {k : Nat} {l : List (Nat × α)}
    (h : p ∈ alErase k l) : p ∈ l :=
  (alErase_sublist k l).subset h

theorem nodup_keys_alErase (k : Nat) (l : List (Nat × α))
    (h : (l.map Prod.fst).Nodup) : ((alErase k l).map Prod.fst).Nodup :=
  (((alErase_sublist k l).map Prod.fst).nodup h)

theorem not_mem_keys_alErase_self (k : Nat) (l : List (Nat × α)) :
    k ∉ (alErase k l).map Prod.fst := by
  induction l with
  | nil => simp
  | cons p t ih =>
    obtain ⟨k', v⟩ := p
    by_cases h : k' = k <;> simp [h, ih]
    exact fun hh => absurd hh.symm h

theorem nodup_keys_alInsert (k : Nat) (v : α) (l : List (Nat × α))
    (h : (l.map Prod.fst).Nodup) : ((alInsert k v l).map Prod.fst).Nodup := by
  simp only [alInsert, List.map_cons, List.nodup_cons]
  exact ⟨not_mem_keys_alErase_self k l, nodup_keys_alErase k l h⟩

theorem mem_alInsert {p : Nat × α} {k : Nat} {v : α} {l : List (Nat × α)}
    (h : p ∈ alInsert k v l) : p = (k, v) ∨ p ∈ l := by
  rcases List.mem_cons.mp h with h | h
  · exact Or.inl h
  · exact Or.inr (mem_of_mem_alErase h)

theorem mem_of_alGet_eq_some {k : Nat} {v : α} {l : List (Nat × α)}
    (h : alGet k l = some v) : (k, v) ∈ l := by
  induction l with
  | nil => simp [alGet] at h
  | cons p t ih =>
    obtain ⟨k', v'⟩ := p
    by_cases h2 : k' = k
    · subst h2
      rw [alGet_cons, if_pos rfl, Option.some.injEq] at h
      subst h
      exact List.mem_cons_self ..
    · rw [alGet_cons, if_neg h2] at h
      exact List.mem_cons_of_mem _ (ih h)

theorem not_mem_keys_of_alGet_eq_none {k : Nat} {l : List (Nat × α)}
    (h : alGet k l = none) : k ∉ l.map Prod.fst := by
  intro hm
  have := alGet_isSome_of_mem_keys k l hm
  simp [h] at this

theorem alErase_eq_self_of_alGet_eq_none {k : Nat} {l : List (Nat × α)}
    (h : alGet k l = none) : alErase k l = l :=
  alErase_of_not_mem_keys k l (not_mem_keys_of_alGet_eq_none h)

@[simp] theorem refsBy_nil (f : β → Nat) (uid : Nat) :
    refsBy f uid ([] : List (Nat × β)) = 0 := rfl

theorem refsBy_cons (f : β → Nat) (uid k : Nat) (v : β) (t : List (Nat × β)) :
    refsBy f uid ((k, v) :: t) = (if f v = uid then 1 else 0) + refsBy f uid t := by
  by_cases h : f v = uid <;> simp [refsBy, List.filter, h, Nat.add_comm]

theorem refsBy_pos_of_mem {f : β → Nat} {uid k : Nat} {v : β} {l : List (Nat × β)}
    (hmem : (k, v) ∈ l) (hname : f v = uid) : 0 < refsBy f uid l := by
  induction l with
  | nil => simp at hmem
  | cons p t ih =>
    obtain ⟨k', v'⟩ := p
    rw [refsBy_cons]
    rcases List.mem_cons.mp hmem with h | h
    · obtain ⟨h1, h2⟩ := Prod.mk.injEq .. ▸ h
      simp [← h2, hname]
    · exact Nat.lt_of_lt_of_le (ih h) (Nat.le_add_left _ _)

theorem refsBy_eq_zero_of_keyed_not_mem {f : β → Nat} {uid : Nat} {l : List (Nat × β)}
    (hkeyed : ∀ p ∈ l, f p.2 = p.1) (hnm : uid ∉ l.map Prod.fst) :
    refsBy f uid l = 0 := by
  induction l with
  | nil => rfl
  | cons p t ih =>
    obtain ⟨k', v'⟩ := p
    simp only [List.map_cons, List.mem_cons] at hnm
    push_neg at hnm
    rw [refsBy_cons]
    have h1 : f v' = k' := hkeyed (k', v') (List.mem_cons_self ..)
    have h2 : f v' ≠ uid := by rw [h1]; exact fun hh => hnm.1 hh.symm
    simp [h2]
    exact ih (fun p hp => hkeyed p (List.mem_cons_of_mem _ hp)) hnm.2

theorem refsBy_alErase_of_keyed {f : β → Nat} {uid k : Nat} {l : List (Nat × β)}
    (hkeyed : ∀ p ∈ l, f p.2 = p.1) (hne : uid ≠ k) :
    refsBy f uid (alErase k l) = refsBy f uid l := by
  induction l with
  | nil => rfl
  | cons p t ih =>
    obtain ⟨k', v'⟩ := p
    have hk' : f v' = k' := hkeyed (k', v') (List.mem_cons_self ..)
    have iht := ih (fun p hp => hkeyed p (List.mem_cons_of_mem _ hp))
    by_cases h : k' = k
    · have : f v' ≠ uid := by rw [hk', h]; exact fun hh => hne hh.symm
      simp [h, refsBy_cons, this, iht]
    · simp [h, refsBy_cons, iht]

theorem refsBy_alErase_self_of_keyed {f : β → Nat} {uid : Nat} {l : List (Nat × β)}
    (hkeyed : ∀ p ∈ l, f p.2 = p.1) :
    refsBy f uid (alErase uid l) = 0 := by
  refine refsBy_eq_zero_of_keyed_not_mem ?_ (not_mem_keys_alErase_self uid l)
  exact fun p hp => hkeyed p (mem_of_mem_alErase hp)

theorem refsBy_eq_one_of_keyed {f : β → Nat} {uid : Nat} {v : β} {l : List (Nat × β)}
    (hkeyed : ∀ p ∈ l, f p.2 = p.1) (hnd : (l.map Prod.fst).Nodup)
    (hget : alGet uid l = some v) : refsBy f uid l = 1 := by
  induction l with
  | nil => simp [alGet] at hget
  | cons p t ih =>
    obtain ⟨k', v'⟩ := p
    simp only [List.map_cons, List.nodup_cons] at hnd
    have hk' : f v' = k' := hkeyed (k', v') (List.mem_cons_self ..)
    have hkt : ∀ p ∈ t, f p.2 = p.1 := fun p hp => hkeyed p (List.mem_cons_of_mem _ hp)
    by_cases h : k' = uid
    · subst h
      rw [refsBy_cons]
      simp [hk', refsBy_eq_zero_of_keyed_not_mem hkt hnd.1]
    · rw [alGet_cons, if_neg h] at hget
      have : f v' ≠ uid := by rw [hk']; exact h
      rw [refsBy_cons]
      simp [this, ih hkt hnd.2 hget]

theorem refsBy_append (f : β → Nat) (uid : Nat) (a b : List (Nat × β)) :
    refsBy f uid (a ++ b) = refsBy f uid a + refsBy f uid b := by
  simp [refsBy, List.filter_append]

theorem sum_map_alInsert (μ : β → Nat) (k : Nat) (v : β) (l : List (Nat × β)) :
    ((alInsert k v l).map (fun p => μ p.2)).sum
      = μ v + ((alErase k l).map (fun p => μ p.2)).sum := by
  simp [alInsert]

theorem sum_map_alErase_of_get {μ : β → Nat} {k : Nat} {v : β} {l : List (Nat × β)}
    (hnd : (l.map Prod.fst).Nodup) (hget : alGet k l = some v) :
    (l.map (fun p => μ p.2)).sum = μ v + ((alErase k l).map (fun p => μ p.2)).sum := by
  induction l with
  | nil => simp [alGet] at hget
  | cons p t ih =>
    obtain ⟨k', v'⟩ := p
    simp only [List.map_cons, List.nodup_cons] at hnd
    by_cases h : k' = k
    · subst h
      rw [alGet_cons, if_pos rfl, Option.some.injEq] at hget
      subst hget
      have : alErase k' t = t := alErase_of_not_mem_keys k' t hnd.1
      simp [this]
    · rw [alGet_cons, if_neg h] at hget
      simp [h, ih hnd.2 hget, Nat.add_left_comm]

theorem sum_map_pos_of_mem {μ : β → Nat} {k : Nat} {v : β} {l : List (Nat × β)}
    (hmem : (k, v) ∈ l) (hpos : 0 < μ v) :
    0 < (l.map (fun p => μ p.2)).sum := by
  induction l with
  | nil => simp at hmem
  | cons p t ih =>
    rcases List.mem_cons.mp hmem with h | h
    · subst h
      simpa using Nat.lt_of_lt_of_le hpos (Nat.le_add_right _ _)
    · simpa using Nat.lt_of_lt_of_le (ih h) (Nat.le_add_left _ _)

theorem refCount_gcUser (uid u : Nat) (s : CacheState) :
    refCount (gcUser uid s) u = refCount s u := by
  unfold gcUser
  split <;> rfl

theorem guild_entries_gcUser (uid : Nat) (s : CacheState) :
    (gcUser uid s).guild_entries = s.guild_entries := by
  unfold gcUser
  split <;> rfl

theorem dm_channel_entries_gcUser (uid : Nat) (s : CacheState) :
    (gcUser uid s).dm_channel_entries = s.dm_channel_entries := by
  unfold gcUser
  split <;> rfl

theorem me_gcUser (uid : Nat) (s : CacheState) :
    (gcUser uid s).me = s.me := by
  unfold gcUser
  split <;> rfl

theorem dm_capacity_gcUser (uid : Nat) (s : CacheState) :
    (gcUser uid s).dm_capacity = s.dm_capacity := by
  unfold gcUser
  split <;> rfl

theorem user_entries_gcUser (uid : Nat) (s : CacheState) :
    (gcUser uid s).user_entries
      = if refCount s uid = 0 then alErase uid s.user_entries else s.user_entries := by
  unfold gcUser
  split <;> simp_all

theorem retention_gcUser {s s' : CacheState} {uid : Nat}
    (husers : s'.user_entries = s.user_entries)
    (hothers : ∀ u, u ≠ uid → refCount s' u = refCount s u)
    (hself : refCount s uid = refCount s' uid + 1)
    (hret : Retention s) : Retention (gcUser uid s') := by
  intro u
  rw [refCount_gcUser, user_entries_gcUser]
  by_cases hu : u = uid
  · subst hu
    by_cases h0 : refCount s' u = 0
    · rw [if_pos h0]
      simp [h0]
    · rw [if_neg h0]
      constructor
      · intro _
        exact Nat.pos_of_ne_zero h0
      · intro _
        rw [husers]
        exact (hret u).mpr (by rw [hself]; exact Nat.succ_pos _)
  · have heq := hothers u hu
    by_cases h0 : refCount s' uid = 0
    · rw [if_pos h0, alGet_alErase_ne u uid _ (fun hh => hu hh.symm), husers, heq]
      exact hret u
    · rw [if_neg h0, husers, heq]
      exact hret u

theorem retention_insert {s s' : CacheState} {k : Nat} {u : User}
    (husers : s'.user_entries = alInsert k u s.user_entries)
    (hothers : ∀ w, w ≠ k → refCount s' w = refCount s w)
    (hself : 0 < refCount s' k)
    (hret : Retention s) : Retention s' := by
  intro w
  by_cases hw : w = k
  · subst hw
    rw [husers]
    simp [hself]
  · rw [husers, alGet_alInsert_ne w k u _ (fun hh => hw hh.symm), hothers w hw]
    exact hret w

theorem refsBy_alInsert_ne {f : β → Nat} {w k : Nat} {v : β} {l : List (Nat × β)}
    (hkeyed : ∀ p ∈ l, f p.2 = p.1) (hv : f v = k) (hw : w ≠ k) :
    refsBy f w (alInsert k v l) = refsBy f w l := by
  show refsBy f w ((k, v) :: alErase k l) = _
  rw [refsBy_cons, if_neg (by rw [hv]; exact fun hh => hw hh.symm),
    refsBy_alErase_of_keyed hkeyed hw]
  simp

theorem refsBy_alInsert_self_pos {f : β → Nat} {k : Nat} {v : β} {l : List (Nat × β)}
    (hv : f v = k) : 0 < refsBy f k (alInsert k v l) :=
  refsBy_pos_of_mem (List.mem_cons_self ..) hv

theorem refCount_set_member (m : Member) (s : CacheState) (w : Nat) :
    refCount (set_member m s) w
      = refsBy MemberData.id w
          (alInsert m.user.id (member_to_data m)
            ((alGet m.guild_id s.guild_entries).getD {}).members)
        + (((alErase m.guild_id s.guild_entries).map
            (fun g => refsBy MemberData.id w g.2.members)).sum
          + refsBy DMChannelData.recipient_id w s.dm_channel_entries) := by
  simp [refCount, set_member, alInsert, Nat.add_assoc]

theorem Inv_set_member (m : Member) (s : CacheState) (hInv : Inv s) :
    Inv (set_member m s) := by
  obtain ⟨hgnd, hgmem, hdnd, hdkey, hret⟩ := hInv
  have hr0spec : ((((alGet m.guild_id s.guild_entries).getD {}).members).map Prod.fst).Nodup
      ∧ ∀ q ∈ ((alGet m.guild_id s.guild_entries).getD {} : GuildRecord).members,
        q.2.id = q.1 := by
    cases hg : alGet m.guild_id s.guild_entries with
    | none => simp
    | some r => simpa using hgmem (m.guild_id, r) (mem_of_alGet_eq_some hg)
  refine ⟨?_, ?_, ?_, ?_, ?_⟩
  · exact nodup_keys_alInsert _ _ _ hgnd
  · intro p hp
    rcases mem_alInsert hp with hp | hp
    · subst hp
      constructor
      · exact nodup_keys_alInsert _ _ _ hr0spec.1
      · intro q hq
        rcases mem_alInsert hq with hq | hq
        · subst hq
          rfl
        · exact hr0spec.2 q hq
    · exact hgmem p hp
  · exact hdnd
  · exact hdkey
  · refine retention_insert (s := s) (k := m.user.id) (u := m.user) rfl ?_ ?_ hret
    · intro w hw
      rw [refCount_set_member,
        refsBy_alInsert_ne hr0spec.2
          (show (member_to_data m).id = m.user.id from rfl) hw]
      cases hg : alGet m.guild_id s.guild_entries with
      | none =>
        rw [alErase_eq_self_of_alGet_eq_none hg]
        simp [hg, refCount]
      | some r =>
        have hsum : (s.guild_entries.map
              (fun g => refsBy MemberData.id w g.2.members)).sum
            = refsBy MemberData.id w r.members
              + ((alErase m.guild_id s.guild_entries).map
                  (fun g => refsBy MemberData.id w g.2.members)).sum :=
          sum_map_alErase_of_get (μ := fun r => refsBy MemberData.id w r.members) hgnd hg
        have hgoal : refCount s w
            = (s.guild_entries.map
                (fun g => refsBy MemberData.id w g.2.members)).sum
              + refsBy DMChannelData.recipient_id w s.dm_channel_entries := rfl
        simp only [Option.getD_some]
        omega
    · have hcount := refCount_set_member m s m.user.id
      have hpos : 0 < refsBy MemberData.id m.user.id
          (alInsert m.user.id (member_to_data m)
            ((alGet m.guild_id s.guild_entries).getD {}).members) :=
        refsBy_alInsert_self_pos (show (member_to_data m).id = m.user.id from rfl)
      omega

theorem delete_member_eq_of_found {s : CacheState} {gid uid : Nat} {r : GuildRecord}
    {d : MemberData} (hg : alGet gid s.guild_entries = some r)
    (hm : alGet uid r.members = some d) :
    delete_member gid uid s
      = (build_member s d,
         gcUser d.id
           { s with guild_entries :=
              alInsert gid { r with members := alErase uid r.members } s.guild_entries }) := by
  simp [delete_member, hg, hm]

theorem refCount_delete_member_aux (gid uid : Nat) (r : GuildRecord) (s : CacheState)
    (w : Nat) :
    refCount { s with
        guild_entries := alInsert gid { r with members := alErase uid r.members }
          s.guild_entries } w
      = refsBy MemberData.id w (alErase uid r.members)
        + (((alErase gid s.guild_entries).map
            (fun g => refsBy MemberData.id w g.2.members)).sum
          + refsBy DMChannelData.recipient_id w s.dm_channel_entries) := by
  simp [refCount, alInsert, Nat.add_assoc]

theorem refCount_after_delete_member {s : CacheState} {gid uid : Nat} {r : GuildRecord}
    {d : MemberData} (hInv : Inv s) (hg : alGet gid s.guild_entries = some r)
    (hm : alGet uid r.members = some d) :
    refCount s uid = refCount (delete_member gid uid s).2 uid + 1 := by
  obtain ⟨hgnd, hgmem, _, _, _⟩ := hInv
  obtain ⟨hmnd0, hmk0⟩ := hgmem (gid, r) (mem_of_alGet_eq_some hg)
  have hmnd : (r.members.map Prod.fst).Nodup := hmnd0
  have hmk : ∀ q ∈ r.members, q.2.id = q.1 := hmk0
  rw [delete_member_eq_of_found hg hm]
  show refCount s uid = refCount (gcUser d.id _) uid + 1
  rw [refCount_gcUser, refCount_delete_member_aux]
  have h0 : refsBy MemberData.id uid (alErase uid r.members) = 0 :=
    refsBy_alErase_self_of_keyed hmk
  have h1 : refsBy MemberData.id uid r.members = 1 :=
    refsBy_eq_one_of_keyed hmk hmnd hm
  have hsum : (s.guild_entries.map
        (fun g => refsBy MemberData.id uid g.2.members)).sum
      = refsBy MemberData.id uid r.members
        + ((alErase gid s.guild_entries).map
            (fun g => refsBy MemberData.id uid g.2.members)).sum :=
    sum_map_alErase_of_get (μ := fun g => refsBy MemberData.id uid g.members) hgnd hg
  have hgoal : refCount s uid
      = (s.guild_entries.map
          (fun g => refsBy MemberData.id uid g.2.members)).sum
        + refsBy DMChannelData.recipient_id uid s.dm_channel_entries := rfl
  omega

theorem Inv_delete_member (gid uid : Nat) (s : CacheState) (hInv : Inv s) :
    Inv (delete_member gid uid s).2 := by
  obtain ⟨hgnd, hgmem, hdnd, hdkey, hret⟩ := hInv
  cases hg : alGet gid s.guild_entries with
  | none =>
    have : (delete_member gid uid s).2 = s := by
      simp [delete_member, hg]
    rw [this]
    exact ⟨hgnd, hgmem, hdnd, hdkey, hret⟩
  | some r =>
    cases hm : alGet uid r.members with
    | none =>
      have : (delete_member gid uid s).2 = s := by
        simp [delete_member, hg, hm]
      rw [this]
      exact ⟨hgnd, hgmem, hdnd, hdkey, hret⟩
    | some d =>
      obtain ⟨hmnd0, hmk0⟩ := hgmem (gid, r) (mem_of_alGet_eq_some hg)
      have hmnd : (r.members.map Prod.fst).Nodup := hmnd0
      have hmk : ∀ q ∈ r.members, q.2.id = q.1 := hmk0
      have hdid : d.id = uid := hmk (uid, d) (mem_of_alGet_eq_some hm)
      have hdelta : refCount s uid = refCount (delete_member gid uid s).2 uid + 1 :=
        refCount_after_delete_member ⟨hgnd, hgmem, hdnd, hdkey, hret⟩ hg hm
      rw [delete_member_eq_of_found hg hm] at hdelta ⊢
      refine ⟨?_, ?_, ?_, ?_, ?_⟩
      · rw [guild_entries_gcUser]
        exact nodup_keys_alInsert _ _ _ hgnd
      · rw [guild_entries_gcUser]
        intro p hp
        rcases mem_alInsert hp with hp | hp
        · subst hp
          exact ⟨nodup_keys_alErase _ _ hmnd,
            fun q hq => hmk q (mem_of_mem_alErase hq)⟩
        · exact hgmem p hp
      · rw [dm_channel_entries_gcUser]
        exact hdnd
      · rw [dm_channel_entries_gcUser]
        exact hdkey
      · rw [show d.id = uid from hdid] at hdelta ⊢
        refine retention_gcUser (s := s) rfl ?_ ?_ hret
        · intro u hu
          rw [refCount_delete_member_aux,
            refsBy_alErase_of_keyed hmk hu]
          have hsum : (s.guild_entries.map
                (fun g => refsBy MemberData.id u g.2.members)).sum
              = refsBy MemberData.id u r.members
                + ((alErase gid s.guild_entries).map
                    (fun g => refsBy MemberData.id u g.2.members)).sum :=
            sum_map_alErase_of_get (μ := fun g => refsBy MemberData.id u g.members) hgnd hg
          have hgoal : refCount s u
              = (s.guild_entries.map
                  (fun g => refsBy MemberData.id u g.2.members)).sum
                + refsBy DMChannelData.recipient_id u s.dm_channel_entries := rfl
          omega
        · rw [show refCount (gcUser uid
              { s with guild_entries :=
                alInsert gid { r with members := alErase uid r.members } s.guild_entries })
              uid = refCount
              { s with guild_entries :=
                alInsert gid { r with members := alErase uid r.members } s.guild_entries }
              uid from refCount_gcUser ..] at hdelta
          omega

theorem refCount_set_dm (s : CacheState) (dms : List (Nat × DMChannelData))
    (us : List (Nat × User)) (w : Nat) :
    refCount { s with dm_channel_entries := dms, user_entries := us } w
      = (s.guild_entries.map (fun g => refsBy MemberData.id w g.2.members)).sum
        + refsBy DMChannelData.recipient_id w dms := rfl

theorem refCount_spell (s : CacheState) (w : Nat) :
    refCount s w
      = (s.guild_entries.map (fun g => refsBy MemberData.id w g.2.members)).sum
        + refsBy DMChannelData.recipient_id w s.dm_channel_entries := rfl

theorem Inv_set_dm_channel (c : DMChannel) (s : CacheState) (hInv : Inv s) :
    Inv (set_dm_channel c s) := by
  obtain ⟨hgnd, hgmem, hdnd, hdkey, hret⟩ := hInv
  by_cases h1 : (alGet c.recipient.id s.dm_channel_entries).isSome
  · have hs : set_dm_channel c s
        = { s with
            dm_channel_entries :=
              (c.recipient.id, dm_to_data c) :: alErase c.recipient.id s.dm_channel_entries,
            user_entries := alInsert c.recipient.id c.recipient s.user_entries } := by
      simp [set_dm_channel, h1]
    rw [hs]
    refine ⟨hgnd, hgmem, ?_, ?_, ?_⟩
    · simp only [List.map_cons, List.nodup_cons]
      exact ⟨not_mem_keys_alErase_self _ _, nodup_keys_alErase _ _ hdnd⟩
    · intro p hp
      rcases List.mem_cons.mp hp with hp | hp
      · subst hp
        rfl
      · exact hdkey p (mem_of_mem_alErase hp)
    · refine retention_insert (s := s) (k := c.recipient.id) (u := c.recipient) rfl ?_ ?_ hret
      · intro w hw
        rw [refCount_set_dm, refsBy_cons, refCount_spell,
          refsBy_alErase_of_keyed hdkey hw]
        have : (dm_to_data c).recipient_id ≠ w := fun hh => hw (hh ▸ rfl)
        rw [if_neg this]
        omega
      · rw [refCount_set_dm]
        have hpos : 0 < refsBy DMChannelData.recipient_id c.recipient.id
            ((c.recipient.id, dm_to_data c)
              :: alErase c.recipient.id s.dm_channel_entries) :=
          refsBy_pos_of_mem (List.mem_cons_self ..) rfl
        omega
  · have hnm : c.recipient.id ∉ s.dm_channel_entries.map Prod.fst :=
      not_mem_keys_of_alGet_eq_none (Option.not_isSome_iff_eq_none.mp h1)
    by_cases h2 : s.dm_channel_entries.length < s.dm_capacity
    · have hs : set_dm_channel c s
          = { s with
              dm_channel_entries := (c.recipient.id, dm_to_data c) :: s.dm_channel_entries,
              user_entries := alInsert c.recipient.id c.recipient s.user_entries } := by
        simp [set_dm_channel, h1, h2]
      rw [hs]
      refine ⟨hgnd, hgmem, ?_, ?_, ?_⟩
      · simp only [List.map_cons, List.nodup_cons]
        exact ⟨hnm, hdnd⟩
      · intro p hp
        rcases List.mem_cons.mp hp with hp | hp
        · subst hp
          rfl
        · exact hdkey p hp
      · refine retention_insert (s := s) (k := c.recipient.id) (u := c.recipient)
          rfl ?_ ?_ hret
        · intro w hw
          rw [refCount_set_dm, refsBy_cons, refCount_spell]
          have : (dm_to_data c).recipient_id ≠ w := fun hh => hw (hh ▸ rfl)
          rw [if_neg this]
          omega
        · rw [refCount_set_dm]
          have hpos : 0 < refsBy DMChannelData.recipient_id c.recipient.id
              ((c.recipient.id, dm_to_data c) :: s.dm_channel_entries) :=
            refsBy_pos_of_mem (List.mem_cons_self ..) rfl
          omega
    · by_cases hnil : s.dm_channel_entries = []
      · have hs : set_dm_channel c s
            = { s with
                dm_channel_entries := [(c.recipient.id, dm_to_data c)],
                user_entries := alInsert c.recipient.id c.recipient s.user_entries } := by
          simp [set_dm_channel, h1, h2, hnil]
        rw [hs]
        refine ⟨hgnd, hgmem, ?_, ?_, ?_⟩
        · simp
        · intro p hp
          rcases List.mem_cons.mp hp with hp | hp
          · subst hp
            rfl
          · simp at hp
        · refine retention_insert (s := s) (k := c.recipient.id) (u := c.recipient)
            rfl ?_ ?_ hret
          · intro w hw
            rw [refCount_set_dm, refsBy_cons, refCount_spell, hnil]
            have : (dm_to_data c).recipient_id ≠ w := fun hh => hw (hh ▸ rfl)
            rw [if_neg this]
            simp
          · rw [refCount_set_dm]
            have hpos : 0 < refsBy DMChannelData.recipient_id c.recipient.id
                [(c.recipient.id, dm_to_data c)] :=
              refsBy_pos_of_mem (List.mem_cons_self ..) rfl
            omega
      · have hlast := List.getLast?_eq_getLast s.dm_channel_entries hnil
        have hsplit := List.dropLast_append_getLast hnil
        have hs : set_dm_channel c s
            = { s with
                dm_channel_entries :=
                  (c.recipient.id, dm_to_data c) :: s.dm_channel_entries.dropLast,
                user_entries :=
                  alInsert c.recipient.id c.recipient
                    (gcUser (s.dm_channel_entries.getLast hnil).2.recipient_id
                      { s with dm_channel_entries :=
                          s.dm_channel_entries.dropLast }).user_entries } := by
          simp only [set_dm_channel, h1, if_false, h2, hlast, Bool.false_eq_true]
          rw [dm_capacity_gcUser, me_gcUser, dm_channel_entries_gcUser, guild_entries_gcUser]
        have hdropsub : List.Sublist (s.dm_channel_entries.dropLast.map Prod.fst)
            (s.dm_channel_entries.map Prod.fst) :=
          (List.dropLast_sublist _).map Prod.fst
        have hlk : ∀ u, refsBy DMChannelData.recipient_id u s.dm_channel_entries
            = refsBy DMChannelData.recipient_id u s.dm_channel_entries.dropLast
              + refsBy DMChannelData.recipient_id u
                  [s.dm_channel_entries.getLast hnil] := by
          intro u
          conv_lhs => rw [← hsplit]
          rw [refsBy_append]
        have hret1 : Retention (gcUser (s.dm_channel_entries.getLast hnil).2.recipient_id
            { s with dm_channel_entries := s.dm_channel_entries.dropLast }) := by
          refine retention_gcUser (s := s) rfl ?_ ?_ hret
          · intro u hu
            rw [show refCount { s with dm_channel_entries := s.dm_channel_entries.dropLast } u
                = (s.guild_entries.map (fun g => refsBy MemberData.id u g.2.members)).sum
                  + refsBy DMChannelData.recipient_id u s.dm_channel_entries.dropLast
              from rfl, refCount_spell, hlk u]
            have hone : refsBy DMChannelData.recipient_id u
                [s.dm_channel_entries.getLast hnil] = 0 := by
              rw [refsBy_cons]
              have : (s.dm_channel_entries.getLast hnil).2.recipient_id ≠ u :=
                fun hh => hu hh.symm
              rw [if_neg this]
              simp
            omega
          · rw [refCount_spell,
              show refCount { s with dm_channel_entries := s.dm_channel_entries.dropLast }
                  (s.dm_channel_entries.getLast hnil).2.recipient_id
                = (s.guild_entries.map (fun g => refsBy MemberData.id
                    (s.dm_channel_entries.getLast hnil).2.recipient_id g.2.members)).sum
                  + refsBy DMChannelData.recipient_id
                      (s.dm_channel_entries.getLast hnil).2.recipient_id
                      s.dm_channel_entries.dropLast
              from rfl, hlk _]
            have hone : refsBy DMChannelData.recipient_id
                (s.dm_channel_entries.getLast hnil).2.recipient_id
                [s.dm_channel_entries.getLast hnil] = 1 := by
              rw [refsBy_cons, if_pos rfl]
              simp
            omega
        rw [hs]
        refine ⟨hgnd, hgmem, ?_, ?_, ?_⟩
        · simp only [List.map_cons, List.nodup_cons]
          exact ⟨fun hk => hnm (hdropsub.subset hk), hdnd.sublist hdropsub⟩
        · intro p hp
          rcases List.mem_cons.mp hp with hp | hp
          · subst hp
            rfl
          · exact hdkey p ((List.dropLast_sublist _).subset hp)
        · refine retention_insert
            (s := gcUser (s.dm_channel_entries.getLast hnil).2.recipient_id
              { s with dm_channel_entries := s.dm_channel_entries.dropLast })
            (k := c.recipient.id) (u := c.recipient) rfl ?_ ?_ hret1
          · intro w hw
            rw [refCount_set_dm, refsBy_cons]
            have hne : (dm_to_data c).recipient_id ≠ w := fun hh => hw (hh ▸ rfl)
            rw [if_neg hne, refCount_gcUser,
              show refCount { s with dm_channel_entries := s.dm_channel_entries.dropLast } w
                = (s.guild_entries.map (fun g => refsBy MemberData.id w g.2.members)).sum
                  + refsBy DMChannelData.recipient_id w s.dm_channel_entries.dropLast
              from rfl]
            omega
          · rw [refCount_set_dm]
            have hpos : 0 < refsBy DMChannelData.recipient_id c.recipient.id
                ((c.recipient.id, dm_to_data c) :: s.dm_channel_entries.dropLast) :=
              refsBy_pos_of_mem (List.mem_cons_self ..) rfl
            omega

theorem delete_dm_channel_eq_of_found {s : CacheState} {uid : Nat} {d : DMChannelData}
    (h : alGet uid s.dm_channel_entries = some d) :
    delete_dm_channel uid s
      = (build_dm s d,
         gcUser d.recipient_id
           { s with dm_channel_entries := alErase uid s.dm_channel_entries }) := by
  simp [delete_dm_channel, h]

theorem Inv_delete_dm_channel (uid : Nat) (s : CacheState) (hInv : Inv s) :
    Inv (delete_dm_channel uid s).2 := by
  obtain ⟨hgnd, hgmem, hdnd, hdkey, hret⟩ := hInv
  cases hd : alGet uid s.dm_channel_entries with
  | none =>
    have : (delete_dm_channel uid s).2 = s := by
      simp [delete_dm_channel, hd]
    rw [this]
    exact ⟨hgnd, hgmem, hdnd, hdkey, hret⟩
  | some d =>
    have hrec : d.recipient_id = uid := hdkey (uid, d) (mem_of_alGet_eq_some hd)
    rw [delete_dm_channel_eq_of_found hd]
    show Inv (gcUser d.recipient_id
      { s with dm_channel_entries := alErase uid s.dm_channel_entries })
    refine ⟨?_, ?_, ?_, ?_, ?_⟩
    · rw [guild_entries_gcUser]
      exact hgnd
    · rw [guild_entries_gcUser]
      exact hgmem
    · rw [dm_channel_entries_gcUser]
      exact nodup_keys_alErase _ _ hdnd
    · rw [dm_channel_entries_gcUser]
      intro p hp
      exact hdkey p (mem_of_mem_alErase hp)
    · rw [hrec]
      refine retention_gcUser (s := s) rfl ?_ ?_ hret
      · intro u hu
        rw [show refCount
              { s with dm_channel_entries := alErase uid s.dm_channel_entries } u
            = (s.guild_entries.map (fun g => refsBy MemberData.id u g.2.members)).sum
              + refsBy DMChannelData.recipient_id u (alErase uid s.dm_channel_entries)
          from rfl, refCount_spell, refsBy_alErase_of_keyed hdkey hu]
      · rw [refCount_spell,
          show refCount
              { s with dm_channel_entries := alErase uid s.dm_channel_entries } uid
            = (s.guild_entries.map (fun g => refsBy MemberData.id uid g.2.members)).sum
              + refsBy DMChannelData.recipient_id uid (alErase uid s.dm_channel_entries)
          from rfl, refsBy_alErase_self_of_keyed hdkey,
          refsBy_eq_one_of_keyed hdkey hdnd hd]

theorem Inv_initCache (cap : Nat) : Inv (initCache cap) := by
  refine ⟨?_, ?_, ?_, ?_, ?_⟩ <;> simp [initCache, Retention, refCount, refsBy]

theorem Inv_recordStep {a b : CacheState} (h : recordStep a b) (hInv : Inv a) : Inv b := by
  obtain ⟨op, hop, rfl⟩ := h
  cases op with
  | setMember m => exact Inv_set_member m a hInv
  | deleteMember gid uid => exact Inv_delete_member gid uid a hInv
  | updateMember m => exact Inv_set_member m a hInv
  | setDmChannel c => exact Inv_set_dm_channel c a hInv
  | deleteDmChannel uid => exact Inv_delete_dm_channel uid a hInv
  | updateDmChannel c => exact Inv_set_dm_channel c a hInv
  | setUser u => simp [isRecordOp] at hop
  | deleteUser uid => simp [isRecordOp] at hop
  | updateUser u => simp [isRecordOp] at hop
  | setMe u => simp [isRecordOp] at hop
  | deleteMe => simp [isRecordOp] at hop
  | updateMe u => simp [isRecordOp] at hop
  | setGuild g => simp [isRecordOp] at hop
  | deleteGuild gid => simp [isRecordOp] at hop
  | setGuildAvailability gid b => simp [isRecordOp] at hop
  | setInitialUnavailableGuilds ids => simp [isRecordOp] at hop
  | clearGuilds => simp [isRecordOp] at hop

theorem Inv_of_reachableByRecordOps {s : CacheState} (h : ReachableByRecordOps s) :
    Inv s := by
  obtain ⟨cap, h⟩ := h
  induction h with
  | refl => exact Inv_initCache cap
  | tail _ hbc ih => exact Inv_recordStep hbc ih

theorem alErase_append (k : Nat) (a b : List (Nat × α)) :
    alErase k (a ++ b) = alErase k a ++ alErase k b := by
  induction a with
  | nil => rfl
  | cons p t ih =>
    obtain ⟨k', v⟩ := p
    by_cases h : k' = k <;> simp [h, ih]

theorem lru_foldl_capacity {α : Type} (f : Nat → α) (ks : List Nat) (init : LRU α) :
    (ks.foldl (fun l k => l.insert k (f k)) init).capacity = init.capacity := by
  induction ks generalizing init with
  | nil => rfl
  | cons a t ih =>
    rw [List.foldl_cons, ih]
    rfl

theorem lru_foldl_insert_eq {α : Type} (cap : Nat) (f : Nat → α) (ks : List Nat)
    (hnd : ks.Nodup) (hcap : 0 < cap) :
    (ks.foldl (fun l k => l.insert k (f k)) (⟨cap, []⟩ : LRU α)).items
      = ((ks.map (fun k => (k, f k))).reverse).take cap := by
  induction ks using List.reverseRecOn with
  | nil => simp
  | append_singleton t k ih =>
    have hnd' : t.Nodup := (List.nodup_append.mp hnd).1
    have hk : k ∉ t := by
      intro hkt
      have := List.nodup_append.mp hnd
      exact this.2.2 hkt (List.mem_singleton_self k)
    have hprev := ih hnd'
    have hknm : k ∉ ((t.foldl (fun l k => l.insert k (f k))
        (⟨cap, []⟩ : LRU α)).items.map Prod.fst) := by
      rw [hprev, List.map_take, List.map_reverse, List.map_map]
      intro hmem
      have h2 : k ∈ (t.map (Prod.fst ∘ (fun j => (j, f j)))).reverse :=
        List.mem_of_mem_take hmem
      rw [List.mem_reverse] at h2
      simp only [List.mem_map, Function.comp] at h2
      obtain ⟨j, hj, hjk⟩ := h2
      exact hk (hjk ▸ hj)
    have hcapeq : (t.foldl (fun l k => l.insert k (f k))
        (⟨cap, []⟩ : LRU α)).capacity = cap :=
      lru_foldl_capacity f t _
    have hins : ∀ L : LRU α, (L.insert k (f k)).items
        = (k, f k) :: (if (alErase k L.items).length < L.capacity
            then alErase k L.items else (alErase k L.items).dropLast) :=
      fun L => rfl
    rw [List.foldl_append, List.foldl_cons, List.foldl_nil, hins, hcapeq,
      alErase_of_not_mem_keys _ _ hknm, hprev]
    have hrev : ((t ++ [k]).map (fun j => (j, f j))).reverse
        = (k, f k) :: (t.map (fun j => (j, f j))).reverse := by
      simp
    rw [hrev]
    have hlen : ((t.map (fun j => (j, f j))).reverse.take cap).length
        = min ((t.map (fun j => (j, f j))).reverse.length) cap := by
      simp [Nat.min_comm]
    obtain ⟨n, rfl⟩ : ∃ n, cap = n + 1 := ⟨cap - 1, by omega⟩
    by_cases hfit : ((t.map (fun j => (j, f j))).reverse.take (n + 1)).length < n + 1
    · rw [if_pos hfit, List.take_succ_cons]
      have hA : (t.map (fun j => (j, f j))).reverse.length ≤ n + 1 := by omega
      have hB : (t.map (fun j => (j, f j))).reverse.length ≤ n := by omega
      rw [List.take_of_length_le hA, List.take_of_length_le hB]
    · rw [if_neg hfit, List.take_succ_cons, List.dropLast_eq_take]
      have hge : n + 1 ≤ (t.map (fun j => (j, f j))).reverse.length := by omega
      have hexact : ((t.map (fun j => (j, f j))).reverse.take (n + 1)).length = n + 1 := by
        omega
      rw [hexact, List.take_take]
      have hmin : min (n + 1 - 1) (n + 1) = n := by omega
      rw [hmin]

theorem lru_read_spec {α : Type} (l : LRU α) (k : Nat) (v : α)
    (hget : alGet k l.items = some v) :
    (l.read k).1 = some v
    ∧ (l.read k).2.items = (k, v) :: alErase k l.items
    ∧ ∀ k', alGet k' (l.read k).2.items = alGet k' l.items := by
  unfold LRU.read
  rw [hget]
  refine ⟨rfl, rfl, ?_⟩
  intro k'
  by_cases hk : k' = k
  · subst hk
    simp [hget]
  · show alGet k' ((k, v) :: alErase k l.items) = _
    rw [alGet_cons, if_neg (fun hh => hk hh.symm),
      alGet_alErase_ne k' k _ (fun hh => hk hh.symm)]

theorem lru_insert_at_capacity {α : Type} (l : LRU α) (k : Nat) (v : α)
    (hne : l.items ≠ []) (hlen : l.items.length = l.capacity)
    (hnd : (l.items.map Prod.fst).Nodup) (hk : k ∉ l.items.map Prod.fst) :
    (l.insert k v).items = (k, v) :: l.items.dropLast
    ∧ alGet (l.items.getLast hne).1 ((l.insert k v).items) = none
    ∧ alGet k ((l.insert k v).items) = some v
    ∧ ∀ p ∈ l.items.dropLast, alGet p.1 ((l.insert k v).items) = some p.2 := by
  have hsplit := List.dropLast_append_getLast hne
  have heq : (l.insert k v).items = (k, v) :: l.items.dropLast := by
    have hd : (l.insert k v).items
        = (k, v) :: (if (alErase k l.items).length < l.capacity
            then alErase k l.items else (alErase k l.items).dropLast) := rfl
    rw [hd, alErase_of_not_mem_keys _ _ hk, hlen]
    simp
  have hkeysplit : l.items.map Prod.fst
      = l.items.dropLast.map Prod.fst ++ [(l.items.getLast hne).1] := by
    conv_lhs => rw [← hsplit]
    simp
  have hlknm : (l.items.getLast hne).1 ∉ l.items.dropLast.map Prod.fst := by
    rw [hkeysplit] at hnd
    have := List.nodup_append.mp hnd
    intro hmem
    exact this.2.2 hmem (List.mem_singleton_self _)
  have hlkne : (l.items.getLast hne).1 ≠ k := by
    intro hh
    apply hk
    rw [← hh]
    exact List.mem_map.mpr ⟨l.items.getLast hne, List.getLast_mem hne, rfl⟩
  refine ⟨heq, ?_, ?_, ?_⟩
  · rw [heq, alGet_cons, if_neg (fun hh => hlkne hh.symm)]
    exact alGet_eq_none_of_not_mem_keys _ _ hlknm
  · rw [heq, alGet_cons, if_pos rfl]
  · intro p hp
    have hpne : k ≠ p.1 := by
      intro hh
      apply hk
      rw [hh]
      exact List.mem_map.mpr ⟨p, (List.dropLast_sublist _).subset hp, rfl⟩
    rw [heq, alGet_cons, if_neg hpne]
    refine alGet_of_mem_of_nodup p.1 p.2 _ (by simpa using hp) ?_
    rw [hkeysplit] at hnd
    exact (List.nodup_append.mp hnd).1

theorem set_dm_eviction_releases_like_delete (c : DMChannel) (s : CacheState)
    (hfull : ¬ s.dm_channel_entries.length < s.dm_capacity)
    (hne : s.dm_channel_entries ≠ [])
    (habsent : alGet c.recipient.id s.dm_channel_entries = none)
    (hnd : (s.dm_channel_entries.map Prod.fst).Nodup) :
    (set_dm_channel c s).user_entries
      = alInsert c.recipient.id c.recipient
          ((delete_dm_channel (s.dm_channel_entries.getLast hne).1 s).2.user_entries) := by
  have hlast := List.getLast?_eq_getLast s.dm_channel_entries hne
  have hsplit := List.dropLast_append_getLast hne
  have hgetlast : alGet (s.dm_channel_entries.getLast hne).1 s.dm_channel_entries
      = some (s.dm_channel_entries.getLast hne).2 :=
    alGet_of_mem_of_nodup _ _ _
      (by simp [List.getLast_mem hne]) hnd
  have hkeysplit : s.dm_channel_entries.map Prod.fst
      = s.dm_channel_entries.dropLast.map Prod.fst
        ++ [(s.dm_channel_entries.getLast hne).1] := by
    conv_lhs => rw [← hsplit]
    simp
  have hlknm : (s.dm_channel_entries.getLast hne).1
      ∉ s.dm_channel_entries.dropLast.map Prod.fst := by
    rw [hkeysplit] at hnd
    have := List.nodup_append.mp hnd
    intro hmem
    exact this.2.2 hmem (List.mem_singleton_self _)
  have herase : alErase (s.dm_channel_entries.getLast hne).1 s.dm_channel_entries
      = s.dm_channel_entries.dropLast := by
    have h1 : alErase (s.dm_channel_entries.getLast hne).1
        (s.dm_channel_entries.dropLast ++ [s.dm_channel_entries.getLast hne])
        = s.dm_channel_entries.dropLast := by
      rw [alErase_append, alErase_of_not_mem_keys _ _ hlknm]
      have h2 : alErase (s.dm_channel_entries.getLast hne).1
          [s.dm_channel_entries.getLast hne] = [] := by
        rw [show (s.dm_channel_entries.getLast hne)
            = ((s.dm_channel_entries.getLast hne).1, (s.dm_channel_entries.getLast hne).2)
          from rfl, alErase_cons, if_pos rfl]
        rfl
      rw [h2, List.append_nil]
    rw [hsplit] at h1
    exact h1
  have hset : (set_dm_channel c s).user_entries
      = alInsert c.recipient.id c.recipient
          (gcUser (s.dm_channel_entries.getLast hne).2.recipient_id
            { s with dm_channel_entries := s.dm_channel_entries.dropLast }).user_entries := by
    have h1 : ¬ (alGet c.recipient.id s.dm_channel_entries).isSome = true := by
      rw [habsent]
      simp
    simp only [set_dm_channel, h1, if_false, hfull, hlast, Bool.false_eq_true]
  have hdel : (delete_dm_channel (s.dm_channel_entries.getLast hne).1 s).2
      = gcUser (s.dm_channel_entries.getLast hne).2.recipient_id
          { s with dm_channel_entries := s.dm_channel_entries.dropLast } := by
    rw [delete_dm_channel_eq_of_found hgetlast]
    show gcUser _ _ = _
    rw [herase]
  rw [hset, hdel]

theorem get_member_set_member (m : Member) (s : CacheState) :
    get_member (set_member m s) m.guild_id m.user.id = some m := by
  unfold get_member set_member build_member
  rw [alGet_alInsert_self]
  show (match alGet m.user.id (alInsert m.user.id (member_to_data m) _) with
    | none => none
    | some d => (alGet d.id (alInsert m.user.id m.user s.user_entries)).map _) = some m
  rw [alGet_alInsert_self]
  show (alGet (member_to_data m).id (alInsert m.user.id m.user s.user_entries)).map _
    = some m
  rw [show (member_to_data m).id = m.user.id from rfl, alGet_alInsert_self]
  rfl

theorem set_dm_channel_shape (c : DMChannel) (s : CacheState) :
    ∃ X Y, set_dm_channel c s
      = { s with dm_channel_entries := (c.recipient.id, dm_to_data c) :: X,
                 user_entries := alInsert c.recipient.id c.recipient Y } := by
  by_cases h1 : (alGet c.recipient.id s.dm_channel_entries).isSome
  · exact ⟨alErase c.recipient.id s.dm_channel_entries, s.user_entries, by
      simp [set_dm_channel, h1]⟩
  · by_cases h2 : s.dm_channel_entries.length < s.dm_capacity
    · exact ⟨s.dm_channel_entries, s.user_entries, by
        simp [set_dm_channel, h1, h2]⟩
    · by_cases hnil : s.dm_channel_entries = []
      · exact ⟨[], s.user_entries, by simp [set_dm_channel, h1, h2, hnil]⟩
      · have hlast := List.getLast?_eq_getLast s.dm_channel_entries hnil
        refine ⟨s.dm_channel_entries.dropLast,
          (gcUser (s.dm_channel_entries.getLast hnil).2.recipient_id
            { s with dm_channel_entries := s.dm_channel_entries.dropLast }).user_entries, ?_⟩
        simp only [set_dm_channel, h1, if_false, h2, hlast, Bool.false_eq_true]
        rw [dm_capacity_gcUser, me_gcUser, dm_channel_entries_gcUser, guild_entries_gcUser]

theorem get_dm_channel_set_dm_channel (c : DMChannel) (s : CacheState) :
    get_dm_channel (set_dm_channel c s) c.recipient.id = some c := by
  obtain ⟨X, Y, hs⟩ := set_dm_channel_shape c s
  rw [hs]
  unfold get_dm_channel build_dm
  show ((alGet c.recipient.id ((c.recipient.id, dm_to_data c) :: X)).bind _) = some c
  rw [alGet_cons, if_pos rfl]
  show (alGet (dm_to_data c).recipient_id
    (alInsert c.recipient.id c.recipient Y)).map _ = some c
  rw [show (dm_to_data c).recipient_id = c.recipient.id from rfl, alGet_alInsert_self]
  rfl

/-- C1: for every member entity with its owner guild, `set_member` followed by
`get_member(guild_id, user.id)` returns a member equal to the original in
every field (user, guild id, nickname, role ids, joined-at, premium-since,
deaf flag, mute flag): the write-path decomposition into a compact record is
an exact left-inverse of the read-path reconstruction. -/
theorem c1_set_member_get_member_roundtrip (m : Member) (s : CacheState) :
    get_member (set_member m s) m.guild_id m.user.id = some m :=
  get_member_set_member m s

/-- C6: every update operation performs fetch-before, set, fetch-after and
returns the pair `(old, new)`, where `old` reflects the pre-call cached
state (absent when previously uncached) and `new` equals the freshly set
value, both fetches routed through the full reconstruction path. -/
theorem c6_update_returns_old_new (s : CacheState) (m : Member) (c : DMChannel)
    (u v : User) :
    (update_member m s).1 = (get_member s m.guild_id m.user.id, some m)
    ∧ (update_dm_channel c s).1 = (get_dm_channel s c.recipient.id, some c)
    ∧ (update_user u s).1 = (get_user s u.id, some u)
    ∧ (update_me v s).1 = (get_me s, some v) := by
  refine ⟨?_, ?_, ?_, rfl⟩
  · show (get_member s m.guild_id m.user.id,
      get_member (set_member m s) m.guild_id m.user.id) = _
    rw [get_member_set_member]
  · show (get_dm_channel s c.recipient.id,
      get_dm_channel (set_dm_channel c s) c.recipient.id) = _
    rw [get_dm_channel_set_dm_channel]
  · show (get_user s u.id, get_user (set_user u s) u.id) = _
    unfold get_user set_user
    rw [alGet_alInsert_self]

/-- C3: requesting the full guild entity of a guild whose record is marked
unavailable raises the distinguished unavailable-guild error, never returns
the stale entity and never returns absent; in particular, after
`set_initial_unavailable_guilds [1, 2, 3]`, `get_guild 2` raises the
unavailable-guild error rather than returning absent. -/
theorem c3_unavailable_guild_error :
    (∀ s : CacheState,
      get_guild (set_initial_unavailable_guilds [1, 2, 3] s) 2 = Except.error ⟨2⟩)
    ∧ ∀ (s : CacheState) (gid : Nat) (r : GuildRecord),
        alGet gid s.guild_entries = some r → r.is_available = some false →
        get_guild s gid = Except.error ⟨gid⟩ := by
  constructor
  · intro s
    show get_guild (set_guild_availability 3 false
      (set_guild_availability 2 false (set_guild_availability 1 false s))) 2 = _
    unfold get_guild
    rw [show (set_guild_availability 3 false (set_guild_availability 2 false
          (set_guild_availability 1 false s))).guild_entries
        = alInsert 3 _ (set_guild_availability 2 false
            (set_guild_availability 1 false s)).guild_entries from rfl,
      alGet_alInsert_ne 2 3 _ _ (by decide),
      show (set_guild_availability 2 false
          (set_guild_availability 1 false s)).guild_entries
        = alInsert 2 { (alGet 2 (set_guild_availability 1 false s).guild_entries).getD {}
            with is_available := some false }
          (set_guild_availability 1 false s).guild_entries from rfl,
      alGet_alInsert_self]
    rfl
  · intro s gid r hg hav
    unfold get_guild
    rw [hg]
    simp [hav]

/-- C3 witness: the bulk-seeding scenario evaluated on a concrete empty
cache, and the general unavailable case at a concrete state. -/
theorem c3_unavailable_guild_error_witness :
    get_guild (set_initial_unavailable_guilds [1, 2, 3] (initCache 4)) 2
      = Except.error ⟨2⟩
    ∧ get_guild
        { dm_capacity := 4,
          guild_entries :=
            [(9, { guild := none, is_available := some false, members := [] })] } 9
      = Except.error ⟨9⟩ :=
  ⟨c3_unavailable_guild_error.1 (initCache 4),
   c3_unavailable_guild_error.2 _ 9 _ rfl rfl⟩

/-- C9 counterexample: `BasicStateRegistry.parse_user` on an id that is
already cached returns the existing cached object unchanged and leaves the
store untouched, even though the incoming payload differs — refuting the
claim that the write operation always wholesale-replaces the cached entry
and never returns the old object in preference to the new one. -/
theorem c9_parse_user_counterexample :
    BasicStateRegistry.parse_user ⟨5, "new"⟩
        { _users := [(5, { id := 5, username := "old" })] }
      = ({ id := 5, username := "old" },
         { _users := [(5, { id := 5, username := "old" })] })
    ∧ ({ id := 5, username := "old" } : User)
        ≠ BasicStateRegistry.userFromPayload ⟨5, "new"⟩ := by
  constructor
  · rfl
  · decide

/-- C9 (amended): the stateful cache's `set_user` inserts or
wholesale-replaces the entry for `user.id`, leaves every other entry and
every reference count unchanged; `BasicStateRegistry.parse_user`, by
contrast, constructs and inserts a user only when the id is uncached, and
otherwise returns the existing cached object unchanged without touching the
store. -/
theorem c9_set_user_amended :
    (∀ (u : User) (s : CacheState),
       alGet u.id (set_user u s).user_entries = some u
       ∧ (∀ k, k ≠ u.id → alGet k (set_user u s).user_entries = alGet k s.user_entries)
       ∧ ∀ w, refCount (set_user u s) w = refCount s w)
    ∧ (∀ (p : BasicStateRegistry.UserPayload) (st : BasicStateRegistry.RegistryState)
        (u0 : User), alGet p.id st._users = some u0 →
        BasicStateRegistry.parse_user p st = (u0, st))
    ∧ ∀ (p : BasicStateRegistry.UserPayload) (st : BasicStateRegistry.RegistryState),
        alGet p.id st._users = none →
        BasicStateRegistry.parse_user p st
          = (BasicStateRegistry.userFromPayload p,
             { st with _users :=
                alInsert p.id (BasicStateRegistry.userFromPayload p) st._users }) := by
  refine ⟨?_, ?_, ?_⟩
  · intro u s
    refine ⟨alGet_alInsert_self .., ?_, fun w => rfl⟩
    intro k hk
    exact alGet_alInsert_ne k u.id u _ (fun hh => hk hh.symm)
  · intro p st u0 hget
    unfold BasicStateRegistry.parse_user
    rw [hget]
  · intro p st hget
    unfold BasicStateRegistry.parse_user
    rw [hget]

/-- C9 witness: the amended claim applied at concrete inputs — `set_user`
replaces a cached user under the same id, and `parse_user` keeps the cached
object. -/
theorem c9_set_user_amended_witness :
    alGet 6 (set_user { id := 6, username := "b" }
        { dm_capacity := 2,
          user_entries := [(6, { id := 6, username := "a" })] }).user_entries
      = some { id := 6, username := "b" }
    ∧ BasicStateRegistry.parse_user ⟨8, "q"⟩
        { _users := [(8, { id := 8, username := "p" })] }
      = ({ id := 8, username := "p" },
         { _users := [(8, { id := 8, username := "p" })] }) :=
  ⟨(c9_set_user_amended.1 { id := 6, username := "b" }
      { dm_capacity := 2, user_entries := [(6, { id := 6, username := "a" })] }).1,
   c9_set_user_amended.2.1 ⟨8, "q"⟩ _ _ rfl⟩

/-- C4 counterexample: `BasicStateRegistry.delete_channel` on an id that is
not cached raises `KeyError(str(channel_id))` instead of returning absent —
refuting the claim that every delete-by-id operation returns absent rather
than raising an exception for uncached ids. -/
theorem c4_delete_raises_counterexample :
    BasicStateRegistry.delete_channel 564234123 {} = Except.error "564234123" := by
  rfl

/-- C4 (amended): every single-entity lookup-by-id returns absent for an
uncached id, and the stateful cache's delete-by-id operations return absent
for an uncached id, but `BasicStateRegistry`'s delete operations
(`delete_channel`, `delete_guild`) raise `KeyError` for an uncached id. -/
theorem c4_lookup_absent_amended :
    (∀ (s : CacheState) (i gid uid : Nat),
      (alGet i s.dm_channel_entries = none →
        get_dm_channel s i = none ∧ delete_dm_channel i s = (none, s))
      ∧ (alGet i s.guild_entries = none →
          get_guild s i = Except.ok none ∧ delete_guild i s = (none, s))
      ∧ (alGet gid s.guild_entries = none →
          get_member s gid uid = none ∧ delete_member gid uid s = (none, s))
      ∧ (∀ r : GuildRecord, alGet gid s.guild_entries = some r →
          alGet uid r.members = none →
          get_member s gid uid = none ∧ delete_member gid uid s = (none, s))
      ∧ (alGet i s.user_entries = none →
          get_user s i = none ∧ (delete_user i s).1 = none))
    ∧ ∀ (st : BasicStateRegistry.RegistryState) (i : Nat),
        (alGet i st._guilds = none →
          BasicStateRegistry.get_guild_by_id st i = none
          ∧ BasicStateRegistry.delete_guild i st = Except.error (toString i))
        ∧ (alGet i st._guild_channels = none → alGet i st._dm_channels = none →
            BasicStateRegistry.get_channel_by_id st i = none
            ∧ BasicStateRegistry.delete_channel i st = Except.error (toString i))
        ∧ (alGet i st._users = none → BasicStateRegistry.get_user_by_id st i = none)
        ∧ (alGet i st._messages = none → BasicStateRegistry.get_message_by_id st i = none)
        ∧ (alGet i st._emojis = none → BasicStateRegistry.get_emoji_by_id st i = none)
        ∧ (alGet i st._guild_channels = none →
            BasicStateRegistry.get_guild_channel_by_id st i = none)
        ∧ BasicStateRegistry.get_role_by_id st i = none := by
  constructor
  · intro s i gid uid
    refine ⟨?_, ?_, ?_, ?_, ?_⟩
    · intro h
      exact ⟨by simp [get_dm_channel, h], by simp [delete_dm_channel, h]⟩
    · intro h
      exact ⟨by simp [get_guild, h], by simp [delete_guild, h]⟩
    · intro h
      exact ⟨by simp [get_member, h], by simp [delete_member, h]⟩
    · intro r hr h
      exact ⟨by simp [get_member, hr, h], by simp [delete_member, hr, h]⟩
    · intro h
      exact ⟨by simp [get_user, h], by simp [delete_user, h]⟩
  · intro st i
    refine ⟨?_, ?_, ?_, ?_, ?_, ?_, rfl⟩
    · intro h
      exact ⟨by simp [BasicStateRegistry.get_guild_by_id, h],
        by simp [BasicStateRegistry.delete_guild, h]⟩
    · intro h1 h2
      exact ⟨by simp [BasicStateRegistry.get_channel_by_id, h1, h2],
        by simp [BasicStateRegistry.delete_channel, h1, h2]⟩
    · intro h
      exact by simp [BasicStateRegistry.get_user_by_id, h]
    · intro h
      exact by simp [BasicStateRegistry.get_message_by_id, h]
    · intro h
      exact by simp [BasicStateRegistry.get_emoji_by_id, h]
    · intro h
      exact by simp [BasicStateRegistry.get_guild_channel_by_id, h]

/-- C4 witness: the amended claim evaluated on empty stores at a concrete
uncached id. -/
theorem c4_lookup_absent_witness :
    (get_dm_channel (initCache 3) 5 = none ∧ delete_dm_channel 5 (initCache 3)
        = (none, initCache 3))
    ∧ (get_guild (initCache 3) 5 = Except.ok none
        ∧ delete_guild 5 (initCache 3) = (none, initCache 3))
    ∧ (BasicStateRegistry.get_guild_by_id {} 7 = none
        ∧ BasicStateRegistry.delete_guild 7 {} = Except.error (toString 7)) :=
  ⟨(c4_lookup_absent_amended.1 (initCache 3) 5 0 0).1 rfl,
   (c4_lookup_absent_amended.1 (initCache 3) 5 0 0).2.1 rfl,
   (c4_lookup_absent_amended.2 {} 7).1 rfl⟩

/-- C5: for every cached guild, `delete_guild` removes the guild entity from
its record and returns it, and a subsequent `get_guild` returns absent; the
record itself is removed entirely exactly when it had no owned
sub-collection entries at the time of deletion, and otherwise the emptied
shell record persists with its owned sub-collections intact. -/
theorem c5_delete_guild (s : CacheState) (gid : Nat) (r : GuildRecord) (g : Guild)
    (hg : alGet gid s.guild_entries = some r) (hguild : r.guild = some g) :
    (delete_guild gid s).1 = some g
    ∧ get_guild (delete_guild gid s).2 gid = Except.ok none
    ∧ (alGet gid (delete_guild gid s).2.guild_entries = none ↔ r.members = [])
    ∧ (r.members ≠ [] → alGet gid (delete_guild gid s).2.guild_entries
        = some { guild := none, is_available := none, members := r.members }) := by
  by_cases hmem : r.members = []
  · have hdel : delete_guild gid s
        = (some g, { s with guild_entries := alErase gid s.guild_entries }) := by
      simp [delete_guild, hg, hguild, recordIsEmpty, hmem]
    rw [hdel]
    refine ⟨rfl, ?_, ?_, ?_⟩
    · show get_guild { s with guild_entries := alErase gid s.guild_entries } gid = _
      unfold get_guild
      rw [show ({ s with guild_entries := alErase gid s.guild_entries }
          : CacheState).guild_entries = alErase gid s.guild_entries from rfl,
        alGet_alErase_self]
    · simpa using hmem
    · intro h
      exact absurd hmem h
  · have hne : recordIsEmpty { r with guild := none, is_available := none } = false := by
      unfold recordIsEmpty
      simp [hmem]
    have hdel : delete_guild gid s
        = (some g,
           { s with
              guild_entries := alInsert gid
                { r with guild := none, is_available := none } s.guild_entries }) := by
      simp [delete_guild, hg, hguild, hne]
    rw [hdel]
    refine ⟨rfl, ?_, ?_, fun _ => ?_⟩
    · show get_guild
        { s with
          guild_entries := alInsert gid
            { r with guild := none, is_available := none } s.guild_entries } gid = _
      unfold get_guild
      rw [show ({ s with
            guild_entries := alInsert gid
              { r with guild := none, is_available := none } s.guild_entries }
          : CacheState).guild_entries
        = alInsert gid
            { r with guild := none, is_available := none } s.guild_entries
        from rfl, alGet_alInsert_self]
      rfl
    · show alGet gid (alInsert gid _ s.guild_entries) = none ↔ _
      rw [alGet_alInsert_self]
      simp [hmem]
    · show alGet gid (alInsert gid _ s.guild_entries) = _
      rw [alGet_alInsert_self]

/-- C5 witness: deletion evaluated at a concrete state holding one guild
with a member (shell retained) — the theorem applied with its hypotheses
discharged by evaluation. -/
theorem c5_delete_guild_witness :
    (delete_guild 5 (⟨3, none, [], [],
        [(5, ⟨some ⟨5, "G"⟩, some true, [(7, ⟨7, 5, none, [], 0, none, false, true⟩)]⟩)]⟩
        : CacheState)).1
      = some ⟨5, "G"⟩
    ∧ get_guild (delete_guild 5 (⟨3, none, [], [],
        [(5, ⟨some ⟨5, "G"⟩, some true, [(7, ⟨7, 5, none, [], 0, none, false, true⟩)]⟩)]⟩
        : CacheState)).2 5
      = Except.ok none := by
  have h := c5_delete_guild (⟨3, none, [], [],
    [(5, ⟨some ⟨5, "G"⟩, some true, [(7, ⟨7, 5, none, [], 0, none, false, true⟩)]⟩)]⟩
    : CacheState) 5 _ _ rfl rfl
  exact ⟨h.1, h.2.1⟩

theorem refsBy_le_one_of_keyed_nodup {f : β → Nat} {u : Nat} {l : List (Nat × β)}
    (hkeyed : ∀ p ∈ l, f p.2 = p.1) (hnd : (l.map Prod.fst).Nodup) :
    refsBy f u l ≤ 1 := by
  by_cases hmem : (alGet u l).isSome
  · obtain ⟨v, hv⟩ := Option.isSome_iff_exists.mp hmem
    rw [refsBy_eq_one_of_keyed hkeyed hnd hv]
  · rw [refsBy_eq_zero_of_keyed_not_mem hkeyed
      (not_mem_keys_of_alGet_eq_none (Option.not_isSome_iff_eq_none.mp hmem))]
    omega

theorem set_dm_channel_dm_shape (c : DMChannel) (s : CacheState) :
    ∃ X, (set_dm_channel c s).dm_channel_entries
        = (c.recipient.id, dm_to_data c) :: X
      ∧ (∀ p ∈ X, p ∈ s.dm_channel_entries)
      ∧ c.recipient.id ∉ X.map Prod.fst
      ∧ ((s.dm_channel_entries.map Prod.fst).Nodup → (X.map Prod.fst).Nodup) := by
  by_cases h1 : (alGet c.recipient.id s.dm_channel_entries).isSome
  · refine ⟨alErase c.recipient.id s.dm_channel_entries, ?_,
      fun p hp => mem_of_mem_alErase hp, not_mem_keys_alErase_self _ _,
      fun hnd => nodup_keys_alErase _ _ hnd⟩
    simp [set_dm_channel, h1]
  · have hnm := not_mem_keys_of_alGet_eq_none (Option.not_isSome_iff_eq_none.mp h1)
    by_cases h2 : s.dm_channel_entries.length < s.dm_capacity
    · exact ⟨s.dm_channel_entries, by simp [set_dm_channel, h1, h2],
        fun p hp => hp, hnm, fun hnd => hnd⟩
    · by_cases hnil : s.dm_channel_entries = []
      · exact ⟨[], by simp [set_dm_channel, h1, h2, hnil], by simp, by simp, by simp⟩
      · have hlast := List.getLast?_eq_getLast s.dm_channel_entries hnil
        refine ⟨s.dm_channel_entries.dropLast, ?_,
          fun p hp => (List.dropLast_sublist _).subset hp,
          fun hk => hnm (((List.dropLast_sublist _).map Prod.fst).subset hk),
          fun hnd => hnd.sublist ((List.dropLast_sublist _).map Prod.fst)⟩
        simp only [set_dm_channel, h1, if_false, h2, hlast, Bool.false_eq_true]
        rw [dm_channel_entries_gcUser]

/-- C10: DM channels are keyed by recipient user id, not by channel id —
`set_dm_channel` stores the compact record under `channel.recipient.id`, and
`get_dm_channel` / `delete_dm_channel` look entries up by that recipient id,
so the operations preserve the invariant that entries are keyed by their
record's recipient id without duplicates, giving at most one cached DM
channel per recipient user. -/
theorem c10_dm_keyed_by_recipient (c : DMChannel) (s : CacheState) (uid ruid : Nat) :
    alGet c.recipient.id (set_dm_channel c s).dm_channel_entries = some (dm_to_data c)
    ∧ (dm_to_data c).recipient_id = c.recipient.id
    ∧ get_dm_channel (set_dm_channel c s) c.recipient.id = some c
    ∧ (((s.dm_channel_entries.map Prod.fst).Nodup
          ∧ ∀ p ∈ s.dm_channel_entries, p.2.recipient_id = p.1) →
        (((set_dm_channel c s).dm_channel_entries.map Prod.fst).Nodup
          ∧ ∀ p ∈ (set_dm_channel c s).dm_channel_entries, p.2.recipient_id = p.1)
        ∧ (((delete_dm_channel uid s).2.dm_channel_entries.map Prod.fst).Nodup
          ∧ ∀ p ∈ (delete_dm_channel uid s).2.dm_channel_entries,
              p.2.recipient_id = p.1)
        ∧ refsBy DMChannelData.recipient_id ruid s.dm_channel_entries ≤ 1) := by
  obtain ⟨X, hX, hXmem, hXnm, hXnd⟩ := set_dm_channel_dm_shape c s
  refine ⟨?_, rfl, get_dm_channel_set_dm_channel c s, ?_⟩
  · rw [hX, alGet_cons, if_pos rfl]
  · rintro ⟨hnd, hkey⟩
    have hdelshape : (delete_dm_channel uid s).2.dm_channel_entries
          = s.dm_channel_entries
        ∨ (delete_dm_channel uid s).2.dm_channel_entries
          = alErase uid s.dm_channel_entries := by
      cases hd : alGet uid s.dm_channel_entries with
      | none =>
        left
        simp [delete_dm_channel, hd]
      | some d =>
        right
        rw [delete_dm_channel_eq_of_found hd, dm_channel_entries_gcUser]
    refine ⟨⟨?_, ?_⟩, ?_, refsBy_le_one_of_keyed_nodup hkey hnd⟩
    · rw [hX]
      simp only [List.map_cons, List.nodup_cons]
      exact ⟨hXnm, hXnd hnd⟩
    · rw [hX]
      intro p hp
      rcases List.mem_cons.mp hp with hp | hp
      · subst hp
        rfl
      · exact hkey p (hXmem p hp)
    · rcases hdelshape with hdel | hdel
      · rw [hdel]
        exact ⟨hnd, hkey⟩
      · rw [hdel]
        exact ⟨nodup_keys_alErase _ _ hnd,
          fun p hp => hkey p (mem_of_mem_alErase hp)⟩

/-- C10 witness: the recipient-keying facts evaluated at a concrete DM
channel on an empty cache. -/
theorem c10_dm_keyed_by_recipient_witness :
    alGet 9 (set_dm_channel ⟨100, none, none, ⟨9, "r"⟩⟩
        (initCache 2)).dm_channel_entries = some ⟨100, none, none, 9⟩
    ∧ (((set_dm_channel ⟨100, none, none, ⟨9, "r"⟩⟩
          (initCache 2)).dm_channel_entries.map Prod.fst).Nodup
        ∧ ∀ p ∈ (set_dm_channel ⟨100, none, none, ⟨9, "r"⟩⟩
            (initCache 2)).dm_channel_entries, p.2.recipient_id = p.1)
    ∧ refsBy DMChannelData.recipient_id 9 (initCache 2).dm_channel_entries ≤ 1 := by
  have h := c10_dm_keyed_by_recipient ⟨100, none, none, ⟨9, "r"⟩⟩ (initCache 2) 3 9
  have h2 := h.2.2.2 (by simp [initCache])
  exact ⟨h.1, h2.1, h2.2.2⟩

theorem mem_keys_of_mem_keys_filterMap {f : Nat × α → Option (Nat × β)}
    (hkey : ∀ p q, f p = some q → q.1 = p.1) {l : List (Nat × α)} {k : Nat}
    (h : k ∈ (l.filterMap f).map Prod.fst) : k ∈ l.map Prod.fst := by
  induction l with
  | nil => simp at h
  | cons p t ih =>
    rw [List.filterMap_cons] at h
    cases hf : f p with
    | none =>
      rw [hf] at h
      simp only [List.map_cons, List.mem_cons]
      exact Or.inr (ih h)
    | some q =>
      rw [hf] at h
      simp only [List.map_cons, List.mem_cons] at h
      rcases h with h | h
      · simp only [List.map_cons, List.mem_cons]
        exact Or.inl (h ▸ (hkey p q hf).symm ▸ rfl)
      · simp only [List.map_cons, List.mem_cons]
        exact Or.inr (ih h)

theorem alGet_filterMap {f : Nat × α → Option (Nat × β)}
    (hkey : ∀ p q, f p = some q → q.1 = p.1) {l : List (Nat × α)} {k : Nat} {r : α}
    (hnd : (l.map Prod.fst).Nodup) (hget : alGet k l = some r) :
    alGet k (l.filterMap f) = (f (k, r)).map Prod.snd := by
  induction l with
  | nil => simp [alGet] at hget
  | cons p t ih =>
    obtain ⟨k', v⟩ := p
    rw [List.filterMap_cons]
    simp only [List.map_cons, List.nodup_cons] at hnd
    by_cases hk : k' = k
    · subst hk
      rw [alGet_cons, if_pos rfl, Option.some.injEq] at hget
      subst hget
      cases hf : f (k', v) with
      | none =>
        show alGet k' (t.filterMap f) = none
        refine alGet_eq_none_of_not_mem_keys _ _ ?_
        intro hmem
        exact hnd.1 (mem_keys_of_mem_keys_filterMap hkey hmem)
      | some q =>
        obtain ⟨q1, q2⟩ := q
        have hq1 : q1 = k' := hkey _ _ hf
        subst hq1
        show alGet q1 ((q1, q2) :: t.filterMap f) = some q2
        rw [alGet_cons, if_pos rfl]
    · rw [alGet_cons, if_neg hk] at hget
      cases hf : f (k', v) with
      | none =>
        show alGet k (t.filterMap f) = (f (k, r)).map Prod.snd
        exact ih hnd.2 hget
      | some q =>
        obtain ⟨q1, q2⟩ := q
        have hq1 : q1 = k' := hkey _ _ hf
        show alGet k ((q1, q2) :: t.filterMap f) = (f (k, r)).map Prod.snd
        rw [alGet_cons, if_neg (by rw [hq1]; exact hk)]
        exact ih hnd.2 hget

theorem clearGuildsEntry_of_none {p : Nat × GuildRecord} (h : p.2.guild = none) :
    clearGuildsEntry p = some p := by
  unfold clearGuildsEntry
  rw [h]

theorem clearGuildsEntry_of_empty {p : Nat × GuildRecord} {g : Guild}
    (h : p.2.guild = some g) (hm : p.2.members = []) : clearGuildsEntry p = none := by
  unfold clearGuildsEntry
  rw [h]
  show (if recordIsEmpty { p.2 with guild := none, is_available := none }
    then none else some (p.1, { p.2 with guild := none, is_available := none })) = none
  rw [if_pos (by simp [recordIsEmpty, hm])]

theorem clearGuildsEntry_of_nonempty {p : Nat × GuildRecord} {g : Guild}
    (h : p.2.guild = some g) (hm : p.2.members ≠ []) :
    clearGuildsEntry p
      = some (p.1, { p.2 with guild := none, is_available := none }) := by
  unfold clearGuildsEntry
  rw [h]
  show (if recordIsEmpty { p.2 with guild := none, is_available := none }
    then none else some (p.1, { p.2 with guild := none, is_available := none }))
    = some (p.1, { p.2 with guild := none, is_available := none })
  rw [if_neg (by simp [recordIsEmpty, hm])]

theorem clearGuildsEntry_key :
    ∀ (p : Nat × GuildRecord) (q : Nat × GuildRecord),
      clearGuildsEntry p = some q → q.1 = p.1 := by
  intro p q h
  unfold clearGuildsEntry at h
  cases hg : p.2.guild with
  | none =>
    rw [hg] at h
    cases h
    rfl
  | some g =>
    rw [hg] at h
    simp only at h
    by_cases he : recordIsEmpty { p.2 with guild := none, is_available := none }
    · rw [if_pos he] at h
      cases h
    · rw [if_neg he] at h
      cases h
      rfl

/-- C8 counterexample: on a cache holding one guild record whose only
content is the guild entity itself, `clear_guilds` returns that guild but
removes the record entirely instead of leaving a placeholder record with an
empty guild field — refuting the claim that clearing always leaves
placeholder records. -/
theorem c8_clear_guilds_counterexample :
    clear_guilds (⟨3, none, [], [],
        [(675345, ⟨some ⟨675345, "G"⟩, some true, []⟩)]⟩ : CacheState)
      = ([(675345, ⟨675345, "G"⟩)], (⟨3, none, [], [], []⟩ : CacheState))
    ∧ alGet 675345 (clear_guilds (⟨3, none, [], [],
        [(675345, ⟨some ⟨675345, "G"⟩, some true, []⟩)]⟩
        : CacheState)).2.guild_entries = none := by
  constructor
  · rfl
  · rfl

/-- C8 (amended): `clear_guilds` removes and returns exactly the
currently-set guild entities; a record that still holds owned
sub-collection entries persists as a shell with an empty guild field and
its sub-collections intact, while a record left fully empty is removed
entirely (matching the partial-emptiness invariant), and records that had
no guild set are untouched. -/
theorem c8_clear_guilds_amended (s : CacheState) :
    (∀ p ∈ s.guild_entries, ∀ g, p.2.guild = some g → (p.1, g) ∈ (clear_guilds s).1)
    ∧ (∀ q ∈ (clear_guilds s).1,
        ∃ r : GuildRecord, (q.1, r) ∈ s.guild_entries ∧ r.guild = some q.2)
    ∧ ((s.guild_entries.map Prod.fst).Nodup →
        ∀ (gid : Nat) (r : GuildRecord), alGet gid s.guild_entries = some r →
          (r.guild = none → alGet gid (clear_guilds s).2.guild_entries = some r)
          ∧ (∀ g, r.guild = some g → r.members = [] →
              alGet gid (clear_guilds s).2.guild_entries = none)
          ∧ ∀ g, r.guild = some g → r.members ≠ [] →
              alGet gid (clear_guilds s).2.guild_entries
                = some { guild := none, is_available := none, members := r.members }) := by
  refine ⟨?_, ?_, ?_⟩
  · intro p hp g hg
    exact List.mem_filterMap.mpr ⟨p, hp, by rw [hg]; rfl⟩
  · intro q hq
    obtain ⟨p, hp, hf⟩ := List.mem_filterMap.mp hq
    cases hg : p.2.guild with
    | none =>
      rw [hg] at hf
      simp at hf
    | some g =>
      rw [hg] at hf
      have hf2 : ((p.1, g) : Nat × Guild) = q := Option.some.inj hf
      subst hf2
      refine ⟨p.2, ?_, ?_⟩
      · show (p.1, p.2) ∈ s.guild_entries
        exact hp
      · show p.2.guild = some g
        exact hg
  · intro hnd gid r hget
    have hmain : alGet gid (clear_guilds s).2.guild_entries
        = (clearGuildsEntry (gid, r)).map Prod.snd :=
      alGet_filterMap clearGuildsEntry_key hnd hget
    refine ⟨?_, ?_, ?_⟩
    · intro hg
      rw [hmain, clearGuildsEntry_of_none (show ((gid, r) : Nat × GuildRecord).2.guild
        = none from hg)]
      rfl
    · intro g hg hm
      rw [hmain, clearGuildsEntry_of_empty (show ((gid, r) : Nat × GuildRecord).2.guild
        = some g from hg) hm]
      rfl
    · intro g hg hm
      rw [hmain, clearGuildsEntry_of_nonempty (show ((gid, r) : Nat × GuildRecord).2.guild
        = some g from hg) hm]
      rfl

/-- C8 witness: the amended claim evaluated on a concrete cache with one
guild-with-member record (shell kept, guild returned) and one placeholder
record (untouched). -/
theorem c8_clear_guilds_amended_witness :
    (1, (⟨1, "A"⟩ : Guild)) ∈ (clear_guilds (⟨2, none, [], [],
        [(1, ⟨some ⟨1, "A"⟩, some true, [(7, ⟨7, 1, none, [], 0, none, false, true⟩)]⟩),
         (2, ⟨none, none, []⟩)]⟩ : CacheState)).1
    ∧ alGet 1 (clear_guilds (⟨2, none, [], [],
        [(1, ⟨some ⟨1, "A"⟩, some true, [(7, ⟨7, 1, none, [], 0, none, false, true⟩)]⟩),
         (2, ⟨none, none, []⟩)]⟩ : CacheState)).2.guild_entries
      = some ⟨none, none, [(7, ⟨7, 1, none, [], 0, none, false, true⟩)]⟩
    ∧ alGet 2 (clear_guilds (⟨2, none, [], [],
        [(1, ⟨some ⟨1, "A"⟩, some true, [(7, ⟨7, 1, none, [], 0, none, false, true⟩)]⟩),
         (2, ⟨none, none, []⟩)]⟩ : CacheState)).2.guild_entries
      = some ⟨none, none, []⟩ := by
  have h := c8_clear_guilds_amended (⟨2, none, [], [],
    [(1, ⟨some ⟨1, "A"⟩, some true, [(7, ⟨7, 1, none, [], 0, none, false, true⟩)]⟩),
     (2, ⟨none, none, []⟩)]⟩ : CacheState)
  refine ⟨h.1 _ (List.mem_cons_self ..) _ rfl, ?_, ?_⟩
  · exact ((h.2.2 (by decide) 1 _ rfl).2.2 ⟨1, "A"⟩ rfl (by decide))
  · exact ((h.2.2 (by decide) 2 _ rfl).1 rfl)

/-- C7: the bounded caches have least-recently-used semantics with capacity
fixed at construction: inserting capacity+1 distinct entries into an empty
LRU leaves exactly capacity entries, the first-inserted (least recently
touched) entry absent and all later ones present; a read counts as a touch,
moving the entry to the most-recent position without changing any lookup;
inserting a fresh key at capacity evicts exactly the least-recently-touched
entry and keeps all others; and at the cache level, eviction during
`set_dm_channel` releases the evicted entry's recipient reference exactly
like `delete_dm_channel` of that entry. -/
theorem c7_lru_bounded_cache :
    (∀ (cap h : Nat) (t : List Nat) (f : Nat → DMChannelData),
      (h :: t).Nodup → t.length = cap → 0 < cap →
      ((((h :: t).foldl (fun l k => l.insert k (f k))
          (⟨cap, []⟩ : LRU DMChannelData)).items.length = cap)
        ∧ ((h :: t).foldl (fun l k => l.insert k (f k))
            (⟨cap, []⟩ : LRU DMChannelData)).find h = none
        ∧ ∀ k ∈ t, ((h :: t).foldl (fun l k => l.insert k (f k))
            (⟨cap, []⟩ : LRU DMChannelData)).find k = some (f k)))
    ∧ (∀ (l : LRU DMChannelData) (k : Nat) (v : DMChannelData),
        alGet k l.items = some v →
        (l.read k).1 = some v
        ∧ (l.read k).2.items = (k, v) :: alErase k l.items
        ∧ ∀ k', alGet k' (l.read k).2.items = alGet k' l.items)
    ∧ (∀ (l : LRU DMChannelData) (k : Nat) (v : DMChannelData)
        (hne : l.items ≠ []), l.items.length = l.capacity →
        (l.items.map Prod.fst).Nodup → k ∉ l.items.map Prod.fst →
        (l.insert k v).items = (k, v) :: l.items.dropLast
        ∧ (l.insert k v).find (l.items.getLast hne).1 = none
        ∧ (l.insert k v).find k = some v
        ∧ ∀ p ∈ l.items.dropLast, (l.insert k v).find p.1 = some p.2)
    ∧ ∀ (c : DMChannel) (s : CacheState) (hne : s.dm_channel_entries ≠ []),
        ¬ s.dm_channel_entries.length < s.dm_capacity →
        alGet c.recipient.id s.dm_channel_entries = none →
        (s.dm_channel_entries.map Prod.fst).Nodup →
        (set_dm_channel c s).user_entries
          = alInsert c.recipient.id c.recipient
              ((delete_dm_channel (s.dm_channel_entries.getLast hne).1
                s).2.user_entries) := by
  refine ⟨?_, lru_read_spec, lru_insert_at_capacity,
    fun c s hne hfull habs hnd =>
      set_dm_eviction_releases_like_delete c s hfull hne habs hnd⟩
  intro cap h t f hnd hlen hcap
  have hfold := lru_foldl_insert_eq cap f (h :: t) hnd hcap
  have hrev : ((h :: t).map (fun k => (k, f k))).reverse
      = (t.map (fun k => (k, f k))).reverse ++ [(h, f h)] := by
    simp
  have hrevlen : ((t.map (fun k => (k, f k))).reverse).length = cap := by
    simp [hlen]
  have htake : (((h :: t).map (fun k => (k, f k))).reverse).take cap
      = (t.map (fun k => (k, f k))).reverse := by
    rw [hrev, ← hrevlen, List.take_left]
  have hitems : ((h :: t).foldl (fun l k => l.insert k (f k))
      (⟨cap, []⟩ : LRU DMChannelData)).items = (t.map (fun k => (k, f k))).reverse := by
    rw [hfold, htake]
  have hkeys : ((t.map (fun k => (k, f k))).reverse).map Prod.fst = t.reverse := by
    rw [List.map_reverse, List.map_map]
    congr 1
    exact List.map_id t
  have hndt : (h :: t : List Nat).Nodup := hnd
  rw [List.nodup_cons] at hndt
  refine ⟨?_, ?_, ?_⟩
  · rw [hitems]
    simp [hlen]
  · show alGet h ((h :: t).foldl (fun l k => l.insert k (f k))
      (⟨cap, []⟩ : LRU DMChannelData)).items = none
    rw [hitems]
    refine alGet_eq_none_of_not_mem_keys _ _ ?_
    rw [hkeys, List.mem_reverse]
    exact hndt.1
  · intro k hk
    show alGet k ((h :: t).foldl (fun l k => l.insert k (f k))
      (⟨cap, []⟩ : LRU DMChannelData)).items = some (f k)
    rw [hitems]
    refine alGet_of_mem_of_nodup _ _ _ ?_ ?_
    · rw [List.mem_reverse, List.mem_map]
      exact ⟨k, hk, rfl⟩
    · rw [hkeys]
      exact List.nodup_reverse.mpr hndt.2

/-- C7 witness: the LRU facts evaluated at capacity 2 with keys 1, 2, 3
(the first-inserted key 1 is evicted), and cache-level eviction compared to
explicit deletion at a concrete full cache. -/
theorem c7_lru_bounded_cache_witness :
    (([1, 2, 3].foldl (fun l k => l.insert k (⟨k, none, none, k⟩ : DMChannelData))
        (⟨2, []⟩ : LRU DMChannelData)).items.length = 2
      ∧ ([1, 2, 3].foldl (fun l k => l.insert k (⟨k, none, none, k⟩ : DMChannelData))
          (⟨2, []⟩ : LRU DMChannelData)).find 1 = none
      ∧ ∀ k ∈ [2, 3], ([1, 2, 3].foldl
          (fun l k => l.insert k (⟨k, none, none, k⟩ : DMChannelData))
          (⟨2, []⟩ : LRU DMChannelData)).find k = some ⟨k, none, none, k⟩)
    ∧ (set_dm_channel ⟨50, none, none, ⟨9, "u9"⟩⟩
        (⟨1, none, [(4, ⟨4, "u4"⟩)], [(4, ⟨40, none, none, 4⟩)], []⟩
          : CacheState)).user_entries
      = alInsert 9 ⟨9, "u9"⟩
          ((delete_dm_channel 4
            (⟨1, none, [(4, ⟨4, "u4"⟩)], [(4, ⟨40, none, none, 4⟩)], []⟩
              : CacheState)).2.user_entries) := by
  constructor
  · exact c7_lru_bounded_cache.1 2 1 [2, 3]
      (fun k => (⟨k, none, none, k⟩ : DMChannelData)) (by decide) rfl (by decide)
  · exact c7_lru_bounded_cache.2.2.2 ⟨50, none, none, ⟨9, "u9"⟩⟩
      (⟨1, none, [(4, ⟨4, "u4"⟩)], [(4, ⟨40, none, none, 4⟩)], []⟩ : CacheState)
      (by decide) (by decide) (by decide) (by decide)

/-- C2 counterexample: the retention iff does not hold in every reachable
cache state — one `set_user` step from the empty cache (an operation of the
cache's interface, pinned by `test_set_user` to insert unconditionally)
yields a state where the user is present in the shared store while its
total reference count is zero. -/
theorem c2_refcount_invariant_counterexample :
    Reachable (set_user ⟨7, "x"⟩ (initCache 10))
    ∧ (alGet 7 (set_user ⟨7, "x"⟩ (initCache 10)).user_entries).isSome
    ∧ refCount (set_user ⟨7, "x"⟩ (initCache 10)) 7 = 0 := by
  refine ⟨⟨10, Relation.ReflTransGen.single ⟨CacheOp.setUser ⟨7, "x"⟩, rfl⟩⟩, rfl, rfl⟩

/-- C2 (amended): in every cache state reachable from the empty cache via
the record-mutating operations (member and DM-channel set/delete/update), a
user is present in the shared store iff its total reference count (member
records plus DM-channel recipient records naming its id) is positive; a
direct `set_user` can additionally insert a zero-reference user.  In any
consistent state, deleting the member record that is the sole reference of
a user removes that user from the shared store, while if a user is
referenced from member records of two different guilds, deleting one leaves
the user present and reachable through the other guild's member. -/
theorem c2_refcount_invariant_amended :
    (∀ s : CacheState, ReachableByRecordOps s →
      ∀ uid, (alGet uid s.user_entries).isSome ↔ 0 < refCount s uid)
    ∧ (∀ (s : CacheState) (gid uid : Nat) (r : GuildRecord) (d : MemberData),
        Inv s → alGet gid s.guild_entries = some r → alGet uid r.members = some d →
        refCount s uid = 1 →
        get_user (delete_member gid uid s).2 uid = none)
    ∧ ∀ (s : CacheState) (g1 g2 uid : Nat) (r1 r2 : GuildRecord) (d1 d2 : MemberData),
        Inv s → g1 ≠ g2 →
        alGet g1 s.guild_entries = some r1 → alGet uid r1.members = some d1 →
        alGet g2 s.guild_entries = some r2 → alGet uid r2.members = some d2 →
        (get_user (delete_member g1 uid s).2 uid).isSome
        ∧ (get_member (delete_member g1 uid s).2 g2 uid).isSome := by
  refine ⟨?_, ?_, ?_⟩
  · intro s h uid
    exact (Inv_of_reachableByRecordOps h).2.2.2.2 uid
  · intro s gid uid r d hInv hg hm hone
    have hfin := Inv_delete_member gid uid s hInv
    have hdelta := refCount_after_delete_member hInv hg hm
    have hzero : refCount (delete_member gid uid s).2 uid = 0 := by omega
    have hiff := hfin.2.2.2.2 uid
    rw [hzero] at hiff
    show alGet uid (delete_member gid uid s).2.user_entries = none
    rcases hx : alGet uid (delete_member gid uid s).2.user_entries with _ | u
    · rfl
    · have : (0 : Nat) < 0 := hiff.mp (by rw [hx]; rfl)
      omega
  · intro s g1 g2 uid r1 r2 d1 d2 hInv hne hg1 hm1 hg2 hm2
    have hfin := Inv_delete_member g1 uid s hInv
    have hd2id : d2.id = uid :=
      (hInv.2.1 (g2, r2) (mem_of_alGet_eq_some hg2)).2 (uid, d2)
        (mem_of_alGet_eq_some hm2)
    have hguilds : (delete_member g1 uid s).2.guild_entries
        = alInsert g1 { r1 with members := alErase uid r1.members }
            s.guild_entries := by
      rw [delete_member_eq_of_found hg1 hm1]
      show (gcUser d1.id _).guild_entries = _
      rw [guild_entries_gcUser]
    have hgu2 : alGet g2 (delete_member g1 uid s).2.guild_entries = some r2 := by
      rw [hguilds, alGet_alInsert_ne g2 g1 _ _ hne]
      exact hg2
    have hpos : 0 < refCount (delete_member g1 uid s).2 uid := by
      have hmemb : (g2, r2) ∈ (delete_member g1 uid s).2.guild_entries :=
        mem_of_alGet_eq_some hgu2
      have hrpos : 0 < refsBy MemberData.id uid r2.members :=
        refsBy_pos_of_mem (mem_of_alGet_eq_some hm2) hd2id
      have hsum : 0 < ((delete_member g1 uid s).2.guild_entries.map
          (fun g => refsBy MemberData.id uid g.2.members)).sum :=
        sum_map_pos_of_mem
          (μ := fun g : GuildRecord => refsBy MemberData.id uid g.members) hmemb hrpos
      have hspell := refCount_spell (delete_member g1 uid s).2 uid
      omega
    have husome : (alGet uid (delete_member g1 uid s).2.user_entries).isSome :=
      (hfin.2.2.2.2 uid).mpr hpos
    refine ⟨husome, ?_⟩
    simp only [get_member, hgu2, hm2]
    unfold build_member
    rw [hd2id]
    obtain ⟨u, hu⟩ := Option.isSome_iff_exists.mp husome
    rw [hu]
    rfl

/-- C2 witness: the amended claim applied to a concrete state, reached by
two `set_member` operations, in which user 7 is a member of guilds 1 and 2;
deleting the guild-1 member leaves the user present and reachable through
the guild-2 member. -/
theorem c2_refcount_invariant_witness :
    (get_user (delete_member 1 7
        (set_member ⟨⟨7, "u"⟩, 1, none, [], 0, none, false, false⟩
          (set_member ⟨⟨7, "u"⟩, 2, none, [], 0, none, false, false⟩
            (initCache 5)))).2 7).isSome
    ∧ (get_member (delete_member 1 7
        (set_member ⟨⟨7, "u"⟩, 1, none, [], 0, none, false, false⟩
          (set_member ⟨⟨7, "u"⟩, 2, none, [], 0, none, false, false⟩
            (initCache 5)))).2 2 7).isSome := by
  have hreach : ReachableByRecordOps
      (set_member ⟨⟨7, "u"⟩, 1, none, [], 0, none, false, false⟩
        (set_member ⟨⟨7, "u"⟩, 2, none, [], 0, none, false, false⟩ (initCache 5))) :=
    ⟨5, Relation.ReflTransGen.tail
      (Relation.ReflTransGen.single
        ⟨CacheOp.setMember ⟨⟨7, "u"⟩, 2, none, [], 0, none, false, false⟩, rfl, rfl⟩)
      ⟨CacheOp.setMember ⟨⟨7, "u"⟩, 1, none, [], 0, none, false, false⟩, rfl, rfl⟩⟩
  exact c2_refcount_invariant_amended.2.2
    (set_member ⟨⟨7, "u"⟩, 1, none, [], 0, none, false, false⟩
      (set_member ⟨⟨7, "u"⟩, 2, none, [], 0, none, false, false⟩ (initCache 5)))
    1 2 7 _ _ _ _ (Inv_of_reachableByRecordOps hreach) (by decide) rfl rfl rfl rfl

end Hikari
